import Mathlib

/-!
# Verification of `raylib_template.c` (takeiteasy/cj)

`raylib_template.c` is a Jinja template: from an API description (typedefs,
structs, functions, enums) it emits C routines that marshal values between a
native API and the Lua stack.

The development has two layers.

* The *emitter* layer transcribes the template: every `{% for %}` becomes a
  list traversal, every `{% if %}` an `if`, and every emitted C line a
  constructor of a small statement type (`Instr`, `Stmt`, `WStmt`).
* The *runtime* layer gives the emitted statements their meaning over a model
  of the Lua stack (`Machine`, `WMachine`).

The helper filters `field_to_lua`, `field_from_lua`, `return_type_from_lua`
and `pascal_to_snake_case` are defined by the generator script, not by the
template; they are parameters (`Helpers`).  The conversion routines the emitted
code calls (`lua_push<T>`, `luaL_check...`) and the bound native functions are
parameters too (`Runtime`).
-/

namespace CJ

/-! ## API description (the template's input) -/

/-- The `type` record of a field, argument or return type: the template reads
`['kind']`, `['base']` and `['array'][0]`. -/
structure TypeDesc where
  kind : String
  base : String
  array : List Nat
  deriving DecidableEq, Repr

/-- The rendering of `field['type']['array'][0]`, the declared length of a
fixed array.  An array descriptor carries at least one dimension; for an empty
dimension list (for which the template renders no number at all) the model
uses 0. -/
def TypeDesc.arrayLen (t : TypeDesc) : Nat := t.array.headD 0

/-- An entry of `struct['fields']`, also used for `func['arguments']`. -/
structure FieldDesc where
  name : String
  type : TypeDesc
  deriving DecidableEq, Repr

/-- An entry of `structs`. -/
structure StructDesc where
  name : String
  fields : List FieldDesc
  deriving DecidableEq, Repr

/-- An entry of `functions`. -/
structure FuncDesc where
  name : String
  arguments : List FieldDesc
  return_type : TypeDesc
  deriving DecidableEq, Repr

/-- An entry of `enum['values']`. -/
structure EnumValue where
  name : String
  value : Int
  deriving DecidableEq, Repr

/-- An entry of `enums`. -/
structure EnumDesc where
  name : String
  values : List EnumValue
  deriving DecidableEq, Repr

/-- The filters the template calls but does not define. -/
structure Helpers where
  field_to_lua : TypeDesc → String
  field_from_lua : TypeDesc → String
  return_type_from_lua : TypeDesc → String
  pascal_to_snake_case : String → String

/-! ## Lua values and the stack -/

/-- Table keys.  The emitted code only ever uses string keys (`lua_pushstring`
followed by `lua_settable`/`lua_gettable`, `lua_setfield`) and integer keys
(`lua_rawseti`, `lua_rawgeti`). -/
inductive Key where
  | str (s : String)
  | int (n : Int)
  deriving DecidableEq, Repr

/-- Lua values.  A table is its list of entries in insertion order; an absent
key reads as `nil`.  Tables carry no metatable. -/
inductive LuaVal where
  | nil
  | bool (b : Bool)
  | num (n : Int)
  | str (s : String)
  | tbl (entries : List (Key × LuaVal))
  deriving Repr

/-- The entries of a table. -/
abbrev Table := List (Key × LuaVal)

/-- Predicate `lua_istable`. -/
def LuaVal.isTable : LuaVal → Bool
  | .tbl _ => true
  | _ => false

/-- Predicate `lua_isnil`. -/
def LuaVal.isNil : LuaVal → Bool
  | .nil => true
  | _ => false

/-- The key denoted by a value used as a table key, if the model has one. -/
def LuaVal.toKey : LuaVal → Option Key
  | .str s => some (.str s)
  | .num n => some (.int n)
  | _ => none

/-- Name of a value's type, as `luaL_typename` prints it. -/
def LuaVal.typeName : LuaVal → String
  | .nil => "nil"
  | .bool _ => "boolean"
  | .num _ => "number"
  | .str _ => "string"
  | .tbl _ => "table"

/-- Raw read `t[k]`. -/
def Table.get : Table → Key → LuaVal
  | [], _ => .nil
  | (a, v) :: t, k => if a = k then v else Table.get t k

/-- Removal of key `k`. -/
def Table.erase : Table → Key → Table
  | [], _ => []
  | (a, v) :: t, k => if a = k then Table.erase t k else (a, v) :: Table.erase t k

/-- Raw write `t[k] = v`; writing `nil` removes the key. -/
def Table.set (t : Table) (k : Key) (v : LuaVal) : Table :=
  if v.isNil then Table.erase t k else Table.erase t k ++ [(k, v)]

/-- The Lua stack, top first. -/
abbrev Stack := List LuaVal

/-- Position (counted from the top, 0 = top) of the slot an API index denotes:
a positive index counts from the bottom (1 = bottom), a negative one from the
top (-1 = top).  Index 0 and indices outside the stack denote no slot. -/
def slotOf (s : Stack) (idx : Int) : Option Nat :=
  if idx < 0 then
    (if (-idx).toNat ≤ s.length then some ((-idx).toNat - 1) else none)
  else if idx = 0 then none
  else (if idx.toNat ≤ s.length then some (s.length - idx.toNat) else none)

/-- The value at an API index (`nil` where the index denotes no slot). -/
def valueAt (s : Stack) (idx : Int) : LuaVal :=
  match slotOf s idx with
  | some p => s.getD p .nil
  | none => .nil

/-! ## Emitted statements (struct routines and enum registration) -/

/-- The native operand of an emitted `lua_push<T>(L, ...)` call inside
`lua_push<Struct>`. -/
inductive Src where
  /-- Operand `val->name`. -/
  | field (name : String)
  /-- Operand `val->name[i]`, with `i` the enclosing loop counter. -/
  | elem (name : String)
  deriving DecidableEq, Repr

/-- The index argument of an emitted API call: a literal, or the C parameter
`index` of `lua_check<Struct>`. -/
inductive Idx where
  | lit (n : Int)
  | index
  deriving DecidableEq, Repr

/-- One emitted C statement (loop-free). -/
inductive Instr where
  /-- Statement `lua_newtable(L);`. -/
  | lua_newtable
  /-- Statement `lua_pushstring(L, "s");`. -/
  | lua_pushstring (s : String)
  /-- Statement `lua_pushnumber(L, n);`. -/
  | lua_pushnumber (n : Int)
  /-- Statement `lua_createtable(L, narr, nrec);`. -/
  | lua_createtable (narr nrec : Nat)
  /-- Statement `lua_push<conv>(L, src);`, or `lua_push<conv>(L, &src);` when
  `byRef`. -/
  | lua_push (conv : String) (byRef : Bool) (src : Src)
  /-- Statement `lua_rawseti(L, idx, i + 1);`. -/
  | lua_rawseti_succ (idx : Int)
  /-- Statement `lua_settable(L, idx);`. -/
  | lua_settable (idx : Int)
  /-- Statement `lua_setfield(L, idx, "k");`. -/
  | lua_setfield (idx : Int) (k : String)
  /-- Statement `lua_gettable(L, idx);`. -/
  | lua_gettable (idx : Idx)
  /-- Statement `if (!lua_istable(L, idx)) luaL_error(L, "msg");`. -/
  | expect_table (idx : Int) (msg : String)
  /-- Statement `lua_rawgeti(L, idx, i);`. -/
  | lua_rawgeti (idx : Int)
  /-- Statement `result.name[i] = conv(L, idx);`. -/
  | assign_elem (name conv : String) (idx : Int)
  /-- Statement `result.name = conv(L, idx);`. -/
  | assign_field (name conv : String) (idx : Int)
  /-- Statement `lua_pop(L, n);`. -/
  | lua_pop (n : Nat)
  deriving DecidableEq, Repr

/-- An emitted statement: a loop-free one, or
`for (int i = 0; i < n; i++) { body }`. -/
inductive Stmt where
  | instr (c : Instr)
  | for_lt (n : Nat) (body : List Instr)
  deriving DecidableEq, Repr

/-! ## The emitter: struct routines (template lines 29-68) -/

/-- Lines 33-45: the statements emitted for one field of `lua_push<Struct>`. -/
def emit_push_field (H : Helpers) (field : FieldDesc) : List Stmt :=
  [.instr (.lua_pushstring field.name)] ++
  (if field.type.kind = "array" then
    [.instr (.lua_createtable field.type.arrayLen 0),
     .for_lt field.type.arrayLen
       [.lua_push (H.field_to_lua field.type) (decide (field.type.base = "Matrix"))
          (.elem field.name),
        .lua_rawseti_succ (-2)]]
  else if field.type.kind = "typedef" then
    [.instr (.lua_push (H.field_to_lua field.type) true (.field field.name))]
  else
    [.instr (.lua_push (H.field_to_lua field.type) false (.field field.name))]) ++
  [.instr (.lua_settable (-3))]

/-- Lines 30-47: the body of
`static void lua_push<Struct>(lua_State *L, <Struct>* val)`. -/
def emit_lua_push (H : Helpers) (struct : StructDesc) : List Stmt :=
  [.instr .lua_newtable] ++ struct.fields.flatMap (emit_push_field H)

/-- Lines 52-64: the statements emitted for one field of `lua_check<Struct>`. -/
def emit_check_field (H : Helpers) (struct : StructDesc) (field : FieldDesc) : List Stmt :=
  [.instr (.lua_pushstring field.name), .instr (.lua_gettable .index)] ++
  (if field.type.kind = "array" then
    [.instr (.expect_table (-1)
       ("Expected a table for " ++ struct.name ++ "." ++ field.name)),
     .for_lt field.type.arrayLen
       [.lua_rawgeti (-1),
        .assign_elem field.name (H.field_from_lua field.type) (-1),
        .lua_pop 1]]
  else
    [.instr (.assign_field field.name (H.field_from_lua field.type) (-1))])

/-- Lines 49-67: the body of
`static <Struct> lua_check<Struct>(lua_State *L, int index)`, between the
declaration of `result` and `return result;`. -/
def emit_lua_check (H : Helpers) (struct : StructDesc) : List Stmt :=
  struct.fields.flatMap (emit_check_field H struct)

/-! ## Runtime model of the emitted struct routines -/

/-- A native aggregate as the emitted code sees it: `scalar f` is the member
`.f`, `elem f i` is the array member element `.f[i]`. -/
structure NativeStruct (ν : Type) where
  scalar : String → ν
  elem : String → Nat → ν

/-- Assignment `result.name = x`. -/
def NativeStruct.setScalar {ν : Type} (r : NativeStruct ν) (name : String) (x : ν) :
    NativeStruct ν :=
  { r with scalar := fun f => if f = name then x else r.scalar f }

/-- Assignment `result.name[i] = x`. -/
def NativeStruct.setElem {ν : Type} (r : NativeStruct ν) (name : String) (i : Nat) (x : ν) :
    NativeStruct ν :=
  { r with elem := fun f j => if f = name ∧ j = i then x else r.elem f j }

/-- The routines the emitted code calls but the template does not define.
`push conv x` is the call `lua_push<conv>(L, x)`; `check conv idx` is the call
`conv(L, idx)`, which either raises a Lua error or returns a native value;
`native f args` is the bound native function `f`. -/
structure Runtime (ν : Type) where
  push : String → ν → Stack → Stack
  check : String → Int → Stack → Except String (ν × Stack)
  native : String → List ν → ν

/-- Table accesses performed by the emitted code itself, in execution order.
For a write, `slot` is the absolute stack index (1 = bottom) of the table
written to. -/
inductive Event where
  | settable (slot : Nat) (key val : LuaVal)
  | rawseti (slot : Nat) (key : Int) (val : LuaVal)
  | setfield (slot : Nat) (key : String) (val : LuaVal)
  | gettable (target key : LuaVal)
  | rawgeti (target : LuaVal) (key : Int)
  deriving Repr

/-- State of a running struct routine.  Once `err` is set (a Lua error was
raised, which unwinds the C routine) no later statement has any effect. -/
structure Machine (ν : Type) where
  stack : Stack
  result : NativeStruct ν
  log : List Event
  err : Option String

/-- What a routine is called with: the conversions, the argument `val` of
`lua_push<Struct>` and the argument `index` of `lua_check<Struct>`. -/
structure Ctx (ν : Type) where
  R : Runtime ν
  val : NativeStruct ν
  index : Int

/-- Raise a Lua error. -/
def Machine.fail {ν : Type} (m : Machine ν) (msg : String) : Machine ν :=
  { m with err := some msg }

/-- The write `t[k] = v` on the table at index `idx` of stack `s`, followed by
popping `npop` values; `mk` builds the log entry from the table's absolute
index.  Writing through an index that holds no table is an error. -/
def Machine.store {ν : Type} (m : Machine ν) (idx : Int) (k : Key) (v : LuaVal) (npop : Nat)
    (mk : Nat → Event) : Machine ν :=
  match slotOf m.stack idx with
  | none => m.fail "invalid index"
  | some p =>
    match m.stack.getD p .nil with
    | .tbl t =>
      { m with stack := (m.stack.set p (.tbl (Table.set t k v))).drop npop,
               log := m.log ++ [mk (m.stack.length - p)] }
    | w => m.fail ("attempt to index a " ++ w.typeName ++ " value")

/-- Value of a push operand; `i` is the loop counter. -/
def Src.eval {ν : Type} (val : NativeStruct ν) (i : Nat) : Src → ν
  | .field name => val.scalar name
  | .elem name => val.elem name i

/-- Value of an index argument. -/
def Idx.eval (index : Int) : Idx → Int
  | .lit n => n
  | .index => index

/-- Execute one loop-free statement; `i` is the value of the loop counter. -/
def step {ν : Type} (C : Ctx ν) (i : Nat) (c : Instr) (m : Machine ν) : Machine ν :=
  if m.err.isSome then m else
  match c with
  | .lua_newtable => { m with stack := .tbl [] :: m.stack }
  | .lua_pushstring s => { m with stack := .str s :: m.stack }
  | .lua_pushnumber n => { m with stack := .num n :: m.stack }
  | .lua_createtable _ _ => { m with stack := .tbl [] :: m.stack }
  | .lua_push conv _ src => { m with stack := C.R.push conv (src.eval C.val i) m.stack }
  | .lua_rawseti_succ idx =>
    match m.stack with
    | v :: _ => m.store idx (.int ((i : Int) + 1)) v 1 (fun a => .rawseti a ((i : Int) + 1) v)
    | [] => m.fail "stack underflow"
  | .lua_settable idx =>
    match m.stack with
    | v :: k :: _ =>
      match k.toKey with
      | some key => m.store idx key v 2 (fun a => .settable a k v)
      | none => m.fail ("table index is " ++ k.typeName)
    | _ => m.fail "stack underflow"
  | .lua_setfield idx k =>
    match m.stack with
    | v :: _ => m.store idx (.str k) v 1 (fun a => .setfield a k v)
    | [] => m.fail "stack underflow"
  | .lua_gettable idx =>
    match m.stack with
    | k :: rest =>
      match valueAt m.stack (idx.eval C.index) with
      | .tbl t =>
        { m with stack := (match k.toKey with
                           | some key => Table.get t key
                           | none => .nil) :: rest,
                 log := m.log ++ [.gettable (.tbl t) k] }
      | w =>
        { m with log := m.log ++ [.gettable w k],
                 err := some ("attempt to index a " ++ w.typeName ++ " value") }
    | [] => m.fail "stack underflow"
  | .expect_table idx msg =>
    if (valueAt m.stack idx).isTable then m else m.fail msg
  | .lua_rawgeti idx =>
    match valueAt m.stack idx with
    | .tbl t =>
      { m with stack := Table.get t (.int i) :: m.stack,
               log := m.log ++ [.rawgeti (.tbl t) i] }
    | w => m.fail ("table expected, got " ++ w.typeName)
  | .assign_elem name conv idx =>
    match C.R.check conv idx m.stack with
    | .ok (x, s) => { m with stack := s, result := m.result.setElem name i x }
    | .error e => m.fail e
  | .assign_field name conv idx =>
    match C.R.check conv idx m.stack with
    | .ok (x, s) => { m with stack := s, result := m.result.setScalar name x }
    | .error e => m.fail e
  | .lua_pop n => { m with stack := m.stack.drop n }

/-- Execute a loop body for one value of the counter. -/
def execInstrs {ν : Type} (C : Ctx ν) (i : Nat) (body : List Instr) (m : Machine ν) :
    Machine ν :=
  body.foldl (fun m c => step C i c m) m

/-- Execute one emitted statement. -/
def execStmt {ν : Type} (C : Ctx ν) (s : Stmt) (m : Machine ν) : Machine ν :=
  match s with
  | .instr c => step C 0 c m
  | .for_lt n body => (List.range n).foldl (fun m i => execInstrs C i body m) m

/-- Execute a sequence of emitted statements. -/
def exec {ν : Type} (C : Ctx ν) (p : List Stmt) (m : Machine ν) : Machine ν :=
  p.foldl (fun m s => execStmt C s m) m

/-- The call `lua_push<Struct>(L, &val)` on stack `s`. -/
def lua_pushStruct {ν : Type} (H : Helpers) (R : Runtime ν) (struct : StructDesc)
    (val : NativeStruct ν) (m : Machine ν) : Machine ν :=
  exec ⟨R, val, 0⟩ (emit_lua_push H struct) m

/-- The call `lua_check<Struct>(L, index)`; the returned aggregate is the
`result` of the final state.  The C local `result` starts out indeterminate:
it is whatever `m.result` is. -/
def lua_checkStruct {ν : Type} (H : Helpers) (R : Runtime ν) (struct : StructDesc)
    (index : Int) (m : Machine ν) : Machine ν :=
  exec ⟨R, m.result, index⟩ (emit_lua_check H struct) m

/-! ## The emitter: macro aliasing of typedefs (template lines 21-27) -/

/-- Python's `v.startswith(p)`. -/
def startswith (v p : String) : Bool := p.toList.isPrefixOf v.toList

/-- Whether `p` occurs as a contiguous block of `v`. -/
def occursIn (p : List Char) : List Char → Bool
  | [] => p.isPrefixOf []
  | c :: cs => p.isPrefixOf (c :: cs) || occursIn p cs

/-- Python's `p in v` on strings. -/
def str_in (p v : String) : Bool := occursIn p.toList v.toList

/-- An emitted line `#define lhs rhs`. -/
structure Define where
  lhs : String
  rhs : String
  deriving DecidableEq, Repr

/-- Lines 22-26: the lines emitted for one entry `k, v` of `typedefs`. -/
def emit_typedef (k v : String) : List Define :=
  if startswith v "struct" = false ∧ k ≠ v ∧ ¬ str_in "(*)" v then
    [⟨k, v⟩, ⟨"lua_push" ++ k, "lua_push" ++ v⟩, ⟨"lua_check" ++ k, "lua_check" ++ v⟩]
  else []

/-- Lines 21-27: the lines emitted for `typedefs.items()`. -/
def emit_typedefs (typedefs : List (String × String)) : List Define :=
  typedefs.flatMap (fun kv => emit_typedef kv.1 kv.2)

/-! ## The emitter: function wrappers (template lines 70-86) -/

/-- One emitted statement of a wrapper `static int lua_<F>(lua_State *L)`. -/
inductive WStmt where
  /-- Statement `ctype name = conv(L, idx);`. -/
  | decl_arg (ctype name conv : String) (idx : Int)
  /-- Statement `func(args);`, or `ctype result = func(args);` when `assign` is
  `some ctype`. -/
  | call (assign : Option String) (func : String) (args : List String)
  /-- Statement `lua_push<conv>(L, result);`, or `lua_push<conv>(L, &result);`
  when `byRef`. -/
  | push_result (conv : String) (byRef : Bool)
  /-- Statement `return n;`. -/
  | ret (n : Int)
  deriving DecidableEq, Repr

/-- Modelled from the spec: the filter `enumerate` is registered by the
generator script, not defined by the template.  Section 4.4 has arguments read
"at positions 1..N (1-indexed, matching the declared argument order)", which
with the template's `i + 1` makes it Python's `enumerate`, counting from 0. -/
def enumerate {α : Type} (xs : List α) : List (Nat × α) := xs.enum

/-- Lines 72-84: the body of `static int lua_<F>(lua_State *L)`. -/
def emit_wrapper (H : Helpers) (func : FuncDesc) : List WStmt :=
  (if func.arguments.length > 0 then
    (enumerate func.arguments).map (fun p =>
      .decl_arg (H.return_type_from_lua p.2.type) p.2.name (H.field_from_lua p.2.type)
        ((p.1 : Int) + 1))
  else []) ++
  [.call
    (if func.return_type.kind ≠ "void" then some (H.return_type_from_lua func.return_type)
     else none)
    func.name
    (if func.arguments.length = 0 then [] else func.arguments.map (fun a => a.name))] ++
  (if func.return_type.kind ≠ "void" then
    [.push_result (H.field_to_lua func.return_type)
      (decide (func.return_type.kind = "typedef"))]
  else []) ++
  [.ret 1]

/-! ## The emitter: registration (template lines 88-102) -/

/-- An initializer `{ name, func }` of the `luaL_Reg` array; `none` is the C
`NULL`. -/
structure RegEntry where
  name : Option String
  func : Option String
  deriving DecidableEq, Repr

/-- Lines 89-94: the array `luaL_Reg regs[size] = { entries }`. -/
structure RegTable where
  size : Nat
  entries : List RegEntry
  deriving DecidableEq, Repr

/-- Lines 89-94. -/
def emit_regs (H : Helpers) (functions : List FuncDesc) : RegTable where
  size := functions.length + 1
  entries :=
    functions.map (fun func =>
      ⟨some (H.pascal_to_snake_case func.name), some ("lua_" ++ func.name)⟩) ++
    [⟨none, none⟩]

/-- Lines 96-101: the statements emitted for `enums`. -/
def emit_enums (enums : List EnumDesc) : List Stmt :=
  enums.flatMap (fun enum =>
    enum.values.flatMap (fun v =>
      [.instr (.lua_pushnumber v.value), .instr (.lua_setfield (-2) v.name)]))

/-- Lines 88-102: the emitted routine
`static void initialize_<name>_lua_bindings(lua_State *L)`: its name, the
array `regs`, the name passed to `lua_register(L, "<bind_name>", regs)` and
the statements that follow that call. -/
structure InitRoutine where
  symbol : String
  regs : RegTable
  bind : String
  enums : List Stmt
  deriving DecidableEq, Repr

/-- Lines 88-102. -/
def emit_init (H : Helpers) (name bind_name : String) (functions : List FuncDesc)
    (enums : List EnumDesc) : InitRoutine where
  symbol := "initialize_" ++ name ++ "_lua_bindings"
  regs := emit_regs H functions
  bind := bind_name
  enums := emit_enums enums

/-! ## Runtime model of the emitted wrappers -/

/-- What a wrapper did, in execution order: conversions of arguments, calls of
the native function, pushes of the result. -/
inductive WEvent (ν : Type) where
  | check (conv : String) (idx : Int) (x : ν)
  | call (func : String) (args : List ν)
  | push (conv : String) (x : ν)

/-- State of a running wrapper: the Lua stack, the declared argument
variables (in declaration order), the variable `result`, the log, a raised
error, and the value returned through `return`. -/
structure WMachine (ν : Type) where
  stack : Stack
  vars : List (String × ν)
  result : Option ν
  log : List (WEvent ν)
  err : Option String
  ret : Option Int

/-- The values of the variables named `names`, if all are declared. -/
def lookupAll {ν : Type} (vars : List (String × ν)) : List String → Option (List ν)
  | [] => some []
  | a :: as =>
    match vars.lookup a, lookupAll vars as with
    | some x, some xs => some (x :: xs)
    | _, _ => none

/-- Execute one wrapper statement.  Nothing runs after an error or a
`return`. -/
def wstep {ν : Type} (R : Runtime ν) (c : WStmt) (m : WMachine ν) : WMachine ν :=
  if m.err.isSome || m.ret.isSome then m else
  match c with
  | .decl_arg _ name conv idx =>
    match R.check conv idx m.stack with
    | .ok (x, s) =>
      { m with stack := s, vars := m.vars ++ [(name, x)],
               log := m.log ++ [.check conv idx x] }
    | .error e => { m with err := some e }
  | .call assign func args =>
    match lookupAll m.vars args with
    | some xs =>
      { m with log := m.log ++ [.call func xs],
               result := if assign.isSome then some (R.native func xs) else m.result }
    | none => { m with err := some "undeclared identifier" }
  | .push_result conv _ =>
    match m.result with
    | some x => { m with stack := R.push conv x m.stack, log := m.log ++ [.push conv x] }
    | none => { m with err := some "undeclared identifier" }
  | .ret n => { m with ret := some n }

/-- Execute a wrapper body. -/
def wexec {ν : Type} (R : Runtime ν) (p : List WStmt) (m : WMachine ν) : WMachine ν :=
  p.foldl (fun m c => wstep R c m) m

/-- The call of the wrapper `lua_<F>` by the Lua runtime on stack `s`. -/
def lua_wrapper {ν : Type} (H : Helpers) (R : Runtime ν) (func : FuncDesc) (s : Stack) :
    WMachine ν :=
  wexec R (emit_wrapper H func) ⟨s, [], none, [], none, none⟩

/-! ## Specification-side helpers -/

/-- Successive raw writes of key/value pairs. -/
def Table.setAll (t : Table) (kvs : List (Key × LuaVal)) : Table :=
  kvs.foldl (fun t e => Table.set t e.1 e.2) t

/-- The key/value pairs `(i + 1, g i)` for `i < n`. -/
def seqPairs (g : Nat → LuaVal) (n : Nat) : List (Key × LuaVal) :=
  (List.range n).map (fun (i : Nat) => (Key.int ((i : Int) + 1), g i))

/-- Whether a log entry is a `lua_settable`. -/
def Event.isSettable : Event → Bool
  | .settable _ _ _ => true
  | _ => false

/-- The value `lua_push<Struct>` stores under a field's name when every push
conversion `lua_push<c>(L, x)` pushes the single value `toLua c x`: a sequence
table for an array field, the converted member otherwise. -/
def pushedValue {ν : Type} (H : Helpers) (toLua : String → ν → LuaVal)
    (val : NativeStruct ν) (f : FieldDesc) : LuaVal :=
  if f.type.kind = "array" then
    .tbl (Table.setAll []
      (seqPairs (fun i => toLua (H.field_to_lua f.type) (val.elem f.name i)) f.type.arrayLen))
  else toLua (H.field_to_lua f.type) (val.scalar f.name)

/-- The table writes `lua_push<Struct>` performs for one field, when entered
on a stack of height `base`: the element writes of an array field (into the
nested table, at absolute index `base + 3`), then the insertion under the
field's name (into the table at absolute index `base + 1`). -/
def pushLog {ν : Type} (H : Helpers) (toLua : String → ν → LuaVal)
    (val : NativeStruct ν) (base : Nat) (f : FieldDesc) : List Event :=
  (if f.type.kind = "array" then
    (List.range f.type.arrayLen).map (fun (i : Nat) =>
      Event.rawseti (base + 3) ((i : Int) + 1)
        (toLua (H.field_to_lua f.type) (val.elem f.name i)))
  else []) ++
  [.settable (base + 1) (.str f.name) (pushedValue H toLua val f)]

/-- The key/value pairs `lua_push<Struct>` inserts, in field order. -/
def pushedPairs {ν : Type} (H : Helpers) (toLua : String → ν → LuaVal)
    (val : NativeStruct ν) (fs : List FieldDesc) : List (Key × LuaVal) :=
  fs.map (fun f => (Key.str f.name, pushedValue H toLua val f))

/-- The aggregate after the assignments `result.name[i] = g i` for
`i = 0, ..., n - 1`, in that order. -/
def assignElems {ν : Type} (name : String) (g : Nat → ν) (n : Nat) (r : NativeStruct ν) :
    NativeStruct ν :=
  (List.range n).foldl (fun r i => r.setElem name i (g i)) r

/-- The message of the error raised for a non-table array field. -/
def expectedTableMsg (struct : StructDesc) (field : FieldDesc) : String :=
  "Expected a table for " ++ struct.name ++ "." ++ field.name

/-- The state of a call `lua_check<Struct>(L, index)` entered in state `m`,
after the statements of the fields `fs` have run. -/
def checkAfter {ν : Type} (H : Helpers) (R : Runtime ν) (struct : StructDesc) (index : Int)
    (fs : List FieldDesc) (m : Machine ν) : Machine ν :=
  exec ⟨R, m.result, index⟩ (fs.flatMap (emit_check_field H struct)) m

/-- The first three statements emitted for an array field of
`lua_check<Struct>`: the lookup and the table test (lines 52-56). -/
def emit_check_guard (struct : StructDesc) (field : FieldDesc) : List Stmt :=
  [.instr (.lua_pushstring field.name), .instr (.lua_gettable .index),
   .instr (.expect_table (-1)
     ("Expected a table for " ++ struct.name ++ "." ++ field.name))]

/-- Whether a wrapper log entry is a call of the native function. -/
def WEvent.isCall {ν : Type} : WEvent ν → Bool
  | .call _ _ => true
  | _ => false

/-- Whether a wrapper log entry is a push of the result. -/
def WEvent.isPush {ν : Type} : WEvent ν → Bool
  | .push _ _ => true
  | _ => false

/-- The log entries of the argument conversions of a wrapper: the k-th
declared argument (counting from `k0`) is read at stack index k + 1 with the
check conversion of its declared type, giving the k-th of the values `xs`. -/
def argEvents {ν : Type} (H : Helpers) (k0 : Nat) (args : List FieldDesc) (xs : List ν) :
    List (WEvent ν) :=
  List.zipWith (fun p x => WEvent.check (H.field_from_lua p.2.type) ((p.1 : Int) + 1) x)
    (args.enumFrom k0) xs

/-- The native operand and by-reference flag of a push statement. -/
def Instr.pushRef : Instr → List (Src × Bool)
  | .lua_push _ byRef src => [(src, byRef)]
  | _ => []

/-- The native operands of all push statements of an emitted body, in order,
each with its by-reference flag (`true` for `&operand`). -/
def pushRefs (p : List Stmt) : List (Src × Bool) :=
  p.flatMap (fun s =>
    match s with
    | .instr c => c.pushRef
    | .for_lt _ body => body.flatMap Instr.pushRef)

/-- The by-reference flags of the pushes of `result` in a wrapper body. -/
def resultRefs (p : List WStmt) : List Bool :=
  p.flatMap (fun c =>
    match c with
    | .push_result _ byRef => [byRef]
    | _ => [])

/-- The operand and by-reference flag the template gives the push of one
field: an array element is passed by address exactly when the base type is
named `Matrix`, a direct member exactly when the type's kind is `typedef`. -/
def fieldPushRef (f : FieldDesc) : Src × Bool :=
  if f.type.kind = "array" then (.elem f.name, decide (f.type.base = "Matrix"))
  else (.field f.name, decide (f.type.kind = "typedef"))

/-- All enum values of all groups, in order. -/
def flattenEnums (enums : List EnumDesc) : List EnumValue :=
  enums.flatMap (fun enum => enum.values)

/-- The namespace fields set for a list of enum values. -/
def enumPairs (vs : List EnumValue) : List (Key × LuaVal) :=
  vs.map (fun v => (Key.str v.name, LuaVal.num v.value))

/-! ## Concrete instances used in examples -/

/-- Modelled from the spec: the template does not define the primitive
conversions.  This instance has the numeric conversions of section 4.2
("Scalar: resolved to a primitive conversion"): push is `lua_pushnumber`,
check reads a number and, following the SilentDefault rule of section 7, reads
anything else as the zero value.  The native function sums its arguments. -/
def numRuntime : Runtime Int where
  push := fun _ x s => .num x :: s
  check := fun _ idx s =>
    .ok ((match valueAt s idx with
          | .num n => n
          | _ => 0), s)
  native := fun _ args => args.sum

/-- Modelled from the spec: the same numeric conversions, with a strict check
in the manner of `luaL_checknumber`, which raises an error on a non-number. -/
def strictRuntime : Runtime Int where
  push := fun _ x s => .num x :: s
  check := fun _ idx s =>
    match valueAt s idx with
    | .num n => .ok (n, s)
    | w => .error ("number expected, got " ++ w.typeName)
  native := fun _ args => args.sum

/-- Modelled from the spec: filters that name a conversion after the type's
base name, and a casing transform that lower-cases. -/
def baseHelpers : Helpers where
  field_to_lua := fun t => t.base
  field_from_lua := fun t => "lua_check" ++ t.base
  return_type_from_lua := fun t => t.base
  pascal_to_snake_case := fun s => s.toLower

/-- The type descriptor of a plain number. -/
def numberT : TypeDesc := ⟨"float", "number", []⟩

/-- The struct `Point{x: number, y: number}` of end-to-end scenario 1. -/
def pointS : StructDesc := ⟨"Point", [⟨"x", numberT⟩, ⟨"y", numberT⟩]⟩

/-- A struct with one fixed-array field of declared length `n`. -/
def arrayS (n : Nat) : StructDesc := ⟨"Quad", [⟨"v", ⟨"array", "number", [n]⟩⟩]⟩

/-- The native point with members `x` and `y`. -/
def pointV (x y : Int) : NativeStruct Int where
  scalar := fun f => if f = "x" then x else if f = "y" then y else 0
  elem := fun _ _ => 0

/-- A native aggregate whose array member `v` holds `xs`. -/
def arrayV (xs : List Int) : NativeStruct Int where
  scalar := fun _ => 0
  elem := fun f i => if f = "v" then xs.getD i 0 else 0

/-- A native aggregate of zeros, standing for an arbitrary initial `result`. -/
def zeroV : NativeStruct Int where
  scalar := fun _ => 0
  elem := fun _ _ => 0

/-- The function `Add(a: number, b: number) -> number` of end-to-end
scenario 3. -/
def addF : FuncDesc := ⟨"Add", [⟨"a", numberT⟩, ⟨"b", numberT⟩], numberT⟩

/-- A function `void CloseWindow(void)`. -/
def closeWindowF : FuncDesc := ⟨"CloseWindow", [], ⟨"void", "void", []⟩⟩

/-- The struct `Vector2{x, y}`. -/
def vector2S : StructDesc := ⟨"Vector2", [⟨"x", numberT⟩, ⟨"y", numberT⟩]⟩

/-- A struct with a fixed array of three `Vector2`. -/
def polyS : StructDesc := ⟨"Poly", [⟨"pts", ⟨"array", "Vector2", [3]⟩⟩]⟩

/-- The enum groups of end-to-end scenario 4. -/
def scenarioEnums : List EnumDesc :=
  [⟨"Color", [⟨"RED", 1⟩, ⟨"GREEN", 2⟩]⟩, ⟨"Size", [⟨"SMALL", 1⟩]⟩]

/-- A machine about to run, on stack `s`. -/
def Machine.init {ν : Type} (s : Stack) (r : NativeStruct ν) : Machine ν :=
  ⟨s, r, [], none⟩

/-! # Lemmas -/

/-! ## Tables -/

theorem Table.get_erase_same (t : Table) (k : Key) : Table.get (Table.erase t k) k = .nil := by
  induction t with
  | nil => rfl
  | cons e t ih =>
    obtain ⟨a, b⟩ := e
    by_cases h : a = k <;> simp [Table.erase, Table.get, h, ih]

theorem Table.get_erase_other (t : Table) (k k' : Key) (h : k' ≠ k) :
    Table.get (Table.erase t k) k' = Table.get t k' := by
  induction t with
  | nil => rfl
  | cons e t ih =>
    obtain ⟨a, b⟩ := e
    by_cases ha : a = k
    · have h' : ¬ (a = k') := by rw [ha]; exact fun e => h e.symm
      simp only [Table.erase, Table.get, if_pos ha, if_neg h', ih]
    · by_cases hk : a = k'
      · simp only [Table.erase, Table.get, if_neg ha, if_pos hk]
      · simp only [Table.erase, Table.get, if_neg ha, if_neg hk, ih]

theorem Table.get_append_same (t : Table) (k : Key) (v : LuaVal) (h : ∀ e ∈ t, e.1 ≠ k) :
    Table.get (t ++ [(k, v)]) k = v := by
  induction t with
  | nil => simp [Table.get]
  | cons e t ih =>
    obtain ⟨a, b⟩ := e
    have ha : ¬ (a = k) := h (a, b) (List.mem_cons_self _ _)
    simp only [List.cons_append, Table.get, if_neg ha]
    exact ih (fun x hx => h x (List.mem_cons_of_mem _ hx))

theorem Table.get_append_other (t : Table) (k k' : Key) (v : LuaVal) (h : k' ≠ k) :
    Table.get (t ++ [(k, v)]) k' = Table.get t k' := by
  induction t with
  | nil =>
    have h' : ¬ (k = k') := fun e => h e.symm
    simp [Table.get, h']
  | cons e t ih =>
    obtain ⟨a, b⟩ := e
    by_cases ha : a = k'
    · simp only [List.cons_append, Table.get, if_pos ha]
    · simp only [List.cons_append, Table.get, if_neg ha]
      exact ih

theorem Table.not_mem_erase (t : Table) (k : Key) : ∀ e ∈ Table.erase t k, e.1 ≠ k := by
  induction t with
  | nil => simp [Table.erase]
  | cons e t ih =>
    obtain ⟨a, b⟩ := e
    by_cases ha : a = k
    · simpa [Table.erase, ha] using ih
    · intro e he
      simp only [Table.erase, ha, if_false, List.mem_cons] at he
      rcases he with he | he
      · rw [he]; exact ha
      · exact ih e he

theorem Table.get_set_same (t : Table) (k : Key) (v : LuaVal) :
    Table.get (Table.set t k v) k = v := by
  unfold Table.set
  by_cases hv : v.isNil = true
  · rw [if_pos hv, Table.get_erase_same]
    cases v <;> simp_all [LuaVal.isNil]
  · rw [if_neg hv, Table.get_append_same _ _ _ (Table.not_mem_erase t k)]

theorem Table.get_set_other (t : Table) (k k' : Key) (v : LuaVal) (h : k' ≠ k) :
    Table.get (Table.set t k v) k' = Table.get t k' := by
  unfold Table.set
  by_cases hv : v.isNil = true
  · rw [if_pos hv, Table.get_erase_other _ _ _ h]
  · rw [if_neg hv, Table.get_append_other _ _ _ _ h, Table.get_erase_other _ _ _ h]

theorem Table.setAll_nil (t : Table) : Table.setAll t [] = t := rfl

theorem Table.setAll_cons (t : Table) (e : Key × LuaVal) (kvs : List (Key × LuaVal)) :
    Table.setAll t (e :: kvs) = Table.setAll (Table.set t e.1 e.2) kvs := rfl

theorem Table.setAll_append (t : Table) (xs ys : List (Key × LuaVal)) :
    Table.setAll t (xs ++ ys) = Table.setAll (Table.setAll t xs) ys := by
  unfold Table.setAll; rw [List.foldl_append]

theorem Table.get_setAll_not_mem (kvs : List (Key × LuaVal)) (t : Table) (k : Key)
    (h : k ∉ kvs.map Prod.fst) : Table.get (Table.setAll t kvs) k = Table.get t k := by
  induction kvs generalizing t with
  | nil => rfl
  | cons e kvs ih =>
    simp only [List.map_cons, List.mem_cons, not_or] at h
    rw [Table.setAll_cons, ih _ h.2, Table.get_set_other _ _ _ _ h.1]

theorem Table.get_setAll_mem (kvs : List (Key × LuaVal)) (t : Table) (k : Key) (v : LuaVal)
    (hnd : (kvs.map Prod.fst).Nodup) (h : (k, v) ∈ kvs) :
    Table.get (Table.setAll t kvs) k = v := by
  induction kvs generalizing t with
  | nil => simp at h
  | cons e kvs ih =>
    simp only [List.map_cons, List.nodup_cons] at hnd
    rw [Table.setAll_cons]
    rcases List.mem_cons.1 h with h | h
    · subst h
      rw [Table.get_setAll_not_mem _ _ _ hnd.1, Table.get_set_same]
    · exact ih _ hnd.2 h

theorem Table.erase_of_not_mem (t : Table) (k : Key) (h : k ∉ t.map Prod.fst) :
    Table.erase t k = t := by
  induction t with
  | nil => rfl
  | cons e t ih =>
    obtain ⟨a, b⟩ := e
    simp only [List.map_cons, List.mem_cons, not_or] at h
    have ha : ¬ (a = k) := fun e => h.1 e.symm
    simp [Table.erase, ha, ih h.2]

theorem Table.setAll_eq_append (kvs : List (Key × LuaVal)) (t : Table)
    (hnd : (kvs.map Prod.fst).Nodup) (hnil : ∀ e ∈ kvs, e.2.isNil = false)
    (hfresh : ∀ e ∈ kvs, e.1 ∉ t.map Prod.fst) : Table.setAll t kvs = t ++ kvs := by
  induction kvs generalizing t with
  | nil => simp [Table.setAll_nil]
  | cons e kvs ih =>
    simp only [List.map_cons, List.nodup_cons] at hnd
    have h1 : Table.set t e.1 e.2 = t ++ [e] := by
      unfold Table.set
      rw [hnil e (List.mem_cons_self _ _),
        Table.erase_of_not_mem t e.1 (hfresh e (List.mem_cons_self _ _))]
      simp
    rw [Table.setAll_cons, h1, ih _ hnd.2 (fun x hx => hnil x (List.mem_cons_of_mem _ hx))]
    · simp
    · intro x hx
      simp only [List.map_append, List.map_cons, List.map_nil, List.mem_append,
        List.mem_singleton, not_or]
      refine ⟨hfresh x (List.mem_cons_of_mem _ hx), ?_⟩
      intro hxe
      exact hnd.1 (hxe ▸ List.mem_map_of_mem Prod.fst hx)

/-! ## Stack indices -/

theorem slotOf_neg_one (a : LuaVal) (s : Stack) : slotOf (a :: s) (-1) = some 0 := by
  simp [slotOf]

theorem slotOf_neg_two (a b : LuaVal) (s : Stack) : slotOf (a :: b :: s) (-2) = some 1 := by
  simp [slotOf]

theorem slotOf_neg_three (a b c : LuaVal) (s : Stack) :
    slotOf (a :: b :: c :: s) (-3) = some 2 := by
  simp [slotOf]

theorem valueAt_neg_one (a : LuaVal) (s : Stack) : valueAt (a :: s) (-1) = a := by
  simp [valueAt, slotOf_neg_one]

theorem valueAt_neg_one_nil : valueAt [] (-1) = .nil := by
  simp [valueAt, slotOf]

theorem slotOf_abs (ext : List LuaVal) (v : LuaVal) (st : Stack) :
    slotOf (ext ++ v :: st) ((st.length : Int) + 1) = some ext.length := by
  have h1 : ¬ ((st.length : Int) + 1 < 0) := by omega
  have h2 : ¬ ((st.length : Int) + 1 = 0) := by omega
  have h3 : ((st.length : Int) + 1).toNat = st.length + 1 := by omega
  simp only [slotOf, if_neg h1, if_neg h2, h3, List.length_append, List.length_cons]
  rw [if_pos (by omega)]
  congr 1
  omega

theorem valueAt_abs (ext : List LuaVal) (v : LuaVal) (st : Stack) :
    valueAt (ext ++ v :: st) ((st.length : Int) + 1) = v := by
  simp only [valueAt, slotOf_abs, List.getD_eq_getElem?_getD]
  rw [List.getElem?_append_right (Nat.le_refl _)]
  simp

/-! ## Execution -/

section Exec
variable {ν : Type}

theorem step_of_err (C : Ctx ν) (i : Nat) (c : Instr) (m : Machine ν)
    (h : m.err.isSome = true) : step C i c m = m := by
  simp [step, h]

theorem execInstrs_of_err (C : Ctx ν) (i : Nat) (body : List Instr) (m : Machine ν)
    (h : m.err.isSome = true) : execInstrs C i body m = m := by
  induction body with
  | nil => rfl
  | cons c cs ih =>
    show execInstrs C i cs (step C i c m) = m
    rw [step_of_err C i c m h, ih]

theorem execStmt_of_err (C : Ctx ν) (s : Stmt) (m : Machine ν)
    (h : m.err.isSome = true) : execStmt C s m = m := by
  cases s with
  | instr c => exact step_of_err C 0 c m h
  | for_lt n body =>
    show (List.range n).foldl (fun m i => execInstrs C i body m) m = m
    induction List.range n with
    | nil => rfl
    | cons i is ih =>
      rw [List.foldl_cons, execInstrs_of_err C i body m h, ih]

theorem exec_of_err (C : Ctx ν) (p : List Stmt) (m : Machine ν)
    (h : m.err.isSome = true) : exec C p m = m := by
  induction p with
  | nil => rfl
  | cons s p ih =>
    show exec C p (execStmt C s m) = m
    rw [execStmt_of_err C s m h, ih]

theorem exec_nil (C : Ctx ν) (m : Machine ν) : exec C [] m = m := rfl

theorem exec_cons (C : Ctx ν) (s : Stmt) (p : List Stmt) (m : Machine ν) :
    exec C (s :: p) m = exec C p (execStmt C s m) := rfl

theorem exec_append (C : Ctx ν) (p q : List Stmt) (m : Machine ν) :
    exec C (p ++ q) m = exec C q (exec C p m) := by
  unfold exec; rw [List.foldl_append]

theorem exec_flatMap_cons {α : Type} (C : Ctx ν) (g : α → List Stmt) (x : α) (xs : List α)
    (m : Machine ν) :
    exec C ((x :: xs).flatMap g) m = exec C (xs.flatMap g) (exec C (g x) m) := by
  rw [List.flatMap_cons, exec_append]

theorem for_lt_succ (C : Ctx ν) (n : Nat) (body : List Instr) (m : Machine ν) :
    execStmt C (.for_lt (n + 1) body) m =
      execInstrs C n body (execStmt C (.for_lt n body) m) := by
  simp [execStmt, List.range_succ, List.foldl_append]

theorem for_lt_zero (C : Ctx ν) (body : List Instr) (m : Machine ν) :
    execStmt C (.for_lt 0 body) m = m := rfl

end Exec

/-! ## The serialize routine -/

section Push
variable {ν : Type}

theorem push_loop (C : Ctx ν) (toLua : String → ν → LuaVal)
    (hp : ∀ c x s, C.R.push c x s = toLua c x :: s) (c : String) (b : Bool) (name : String)
    (rest : Stack) (r : NativeStruct ν) (n : Nat) (A : Table) (lg : List Event) :
    execStmt C (.for_lt n [.lua_push c b (.elem name), .lua_rawseti_succ (-2)])
        ⟨.tbl A :: rest, r, lg, none⟩ =
      ⟨.tbl (Table.setAll A (seqPairs (fun i => toLua c (C.val.elem name i)) n)) :: rest, r,
        lg ++ (List.range n).map (fun (i : Nat) =>
          Event.rawseti (rest.length + 1) ((i : Int) + 1) (toLua c (C.val.elem name i))),
        none⟩ := by
  induction n with
  | zero => simp [for_lt_zero, seqPairs, Table.setAll_nil]
  | succ n ih =>
    rw [for_lt_succ, ih]
    simp [execInstrs, step, hp, Machine.store, slotOf_neg_two, Src.eval, seqPairs,
      List.range_succ, Table.setAll_append, Table.setAll_cons, Table.setAll_nil]

theorem push_field (H : Helpers) (C : Ctx ν) (toLua : String → ν → LuaVal)
    (hp : ∀ c x s, C.R.push c x s = toLua c x :: s) (f : FieldDesc)
    (T : Table) (st : Stack) (r : NativeStruct ν) (lg : List Event) :
    exec C (emit_push_field H f) ⟨.tbl T :: st, r, lg, none⟩ =
      ⟨.tbl (Table.set T (.str f.name) (pushedValue H toLua C.val f)) :: st, r,
        lg ++ pushLog H toLua C.val st.length f, none⟩ := by
  unfold emit_push_field pushedValue pushLog
  by_cases ha : f.type.kind = "array"
  · simp only [if_pos ha, List.singleton_append, List.cons_append, List.nil_append, exec_cons,
      exec_nil]
    simp only [execStmt, step, Option.isSome_none, Bool.false_eq_true, if_false]
    have := push_loop C toLua hp (H.field_to_lua f.type) (decide (f.type.base = "Matrix"))
      f.name (.str f.name :: .tbl T :: st) r f.type.arrayLen [] lg
    simp only [execStmt] at this
    rw [this]
    simp [Machine.store, slotOf_neg_three, LuaVal.toKey, pushedValue, ha]
  · by_cases ht : f.type.kind = "typedef"
    · simp [ha, ht, exec, execStmt, step, hp, Machine.store, slotOf_neg_three, LuaVal.toKey,
        Src.eval, pushedValue]
    · simp [ha, ht, exec, execStmt, step, hp, Machine.store, slotOf_neg_three, LuaVal.toKey,
        Src.eval, pushedValue]

theorem push_fields (H : Helpers) (C : Ctx ν) (toLua : String → ν → LuaVal)
    (hp : ∀ c x s, C.R.push c x s = toLua c x :: s) (fs : List FieldDesc)
    (T : Table) (st : Stack) (r : NativeStruct ν) (lg : List Event) :
    exec C (fs.flatMap (emit_push_field H)) ⟨.tbl T :: st, r, lg, none⟩ =
      ⟨.tbl (Table.setAll T (pushedPairs H toLua C.val fs)) :: st, r,
        lg ++ fs.flatMap (pushLog H toLua C.val st.length), none⟩ := by
  induction fs generalizing T lg with
  | nil => simp [exec_nil, pushedPairs, Table.setAll_nil]
  | cons f fs ih =>
    rw [exec_flatMap_cons, push_field H C toLua hp, ih]
    simp [pushedPairs, Table.setAll_cons]

theorem lua_pushStruct_eq (H : Helpers) (R : Runtime ν) (toLua : String → ν → LuaVal)
    (hp : ∀ c x s, R.push c x s = toLua c x :: s) (S : StructDesc) (val : NativeStruct ν)
    (st : Stack) (r : NativeStruct ν) (lg : List Event) :
    lua_pushStruct H R S val ⟨st, r, lg, none⟩ =
      ⟨.tbl (Table.setAll [] (pushedPairs H toLua val S.fields)) :: st, r,
        lg ++ S.fields.flatMap (pushLog H toLua val st.length), none⟩ := by
  unfold lua_pushStruct emit_lua_push
  rw [exec_append]
  have h1 : exec (⟨R, val, 0⟩ : Ctx ν) [.instr .lua_newtable] ⟨st, r, lg, none⟩ =
      ⟨.tbl [] :: st, r, lg, none⟩ := by
    simp [exec, execStmt, step]
  rw [h1]
  exact push_fields H ⟨R, val, 0⟩ toLua hp S.fields [] st r lg

end Push

/-! ## The deserialize routine: exact behaviour of one field -/

section Check
variable {ν : Type}

theorem emit_check_field_array (H : Helpers) (S : StructDesc) (f : FieldDesc)
    (ha : f.type.kind = "array") :
    emit_check_field H S f =
      [.instr (.lua_pushstring f.name), .instr (.lua_gettable .index),
       .instr (.expect_table (-1) (expectedTableMsg S f)),
       .for_lt f.type.arrayLen
         [.lua_rawgeti (-1), .assign_elem f.name (H.field_from_lua f.type) (-1), .lua_pop 1]] := by
  simp [emit_check_field, ha, expectedTableMsg]

theorem emit_check_field_scalar (H : Helpers) (S : StructDesc) (f : FieldDesc)
    (ha : f.type.kind ≠ "array") :
    emit_check_field H S f =
      [.instr (.lua_pushstring f.name), .instr (.lua_gettable .index),
       .instr (.assign_field f.name (H.field_from_lua f.type) (-1))] := by
  simp [emit_check_field, ha]

/-- The lookup `lua_pushstring; lua_gettable(L, index)` on a table. -/
theorem check_lookup (C : Ctx ν) (name : String) (s : Stack) (Tc : Table)
    (hv : valueAt (.str name :: s) C.index = .tbl Tc) (r : NativeStruct ν) (lg : List Event) :
    exec C [.instr (.lua_pushstring name), .instr (.lua_gettable .index)] ⟨s, r, lg, none⟩ =
      ⟨Table.get Tc (.str name) :: s, r, lg ++ [.gettable (.tbl Tc) (.str name)], none⟩ := by
  simp [exec, execStmt, step, Idx.eval, hv, LuaVal.toKey]

/-- The lookup on anything that is not a table. -/
theorem check_lookup_fail (C : Ctx ν) (name : String) (s : Stack)
    (hv : (valueAt (.str name :: s) C.index).isTable = false) (r : NativeStruct ν)
    (lg : List Event) :
    exec C [.instr (.lua_pushstring name), .instr (.lua_gettable .index)] ⟨s, r, lg, none⟩ =
      ⟨.str name :: s, r, lg ++ [.gettable (valueAt (.str name :: s) C.index) (.str name)],
        some ("attempt to index a " ++ (valueAt (.str name :: s) C.index).typeName ++
          " value")⟩ := by
  cases hw : valueAt (.str name :: s) C.index <;>
    simp_all [exec, execStmt, step, Idx.eval, LuaVal.isTable]

theorem check_field_scalar (H : Helpers) (C : Ctx ν) (S : StructDesc) (f : FieldDesc)
    (ha : f.type.kind ≠ "array") (s : Stack) (Tc : Table)
    (hv : valueAt (.str f.name :: s) C.index = .tbl Tc) (r : NativeStruct ν)
    (lg : List Event) :
    exec C (emit_check_field H S f) ⟨s, r, lg, none⟩ =
      match C.R.check (H.field_from_lua f.type) (-1) (Table.get Tc (.str f.name) :: s) with
      | .ok (x, s') =>
        ⟨s', r.setScalar f.name x, lg ++ [.gettable (.tbl Tc) (.str f.name)], none⟩
      | .error e =>
        ⟨Table.get Tc (.str f.name) :: s, r, lg ++ [.gettable (.tbl Tc) (.str f.name)],
          some e⟩ := by
  rw [emit_check_field_scalar H S f ha]
  have h := check_lookup C f.name s Tc hv r lg
  rw [show ([.instr (.lua_pushstring f.name), .instr (.lua_gettable .index),
       .instr (.assign_field f.name (H.field_from_lua f.type) (-1))] : List Stmt) =
      [.instr (.lua_pushstring f.name), .instr (.lua_gettable .index)] ++
      [.instr (.assign_field f.name (H.field_from_lua f.type) (-1))] from rfl,
    exec_append, h]
  cases hc : C.R.check (H.field_from_lua f.type) (-1) (Table.get Tc (.str f.name) :: s) with
  | error e => simp [exec, execStmt, step, hc, Machine.fail]
  | ok p => obtain ⟨x, s'⟩ := p; simp [exec, execStmt, step, hc]

theorem check_field_not_table (H : Helpers) (C : Ctx ν) (S : StructDesc) (f : FieldDesc)
    (ha : f.type.kind = "array") (s : Stack) (Tc : Table)
    (hv : valueAt (.str f.name :: s) C.index = .tbl Tc)
    (hw : (Table.get Tc (.str f.name)).isTable = false) (r : NativeStruct ν)
    (lg : List Event) :
    exec C (emit_check_field H S f) ⟨s, r, lg, none⟩ =
      ⟨Table.get Tc (.str f.name) :: s, r, lg ++ [.gettable (.tbl Tc) (.str f.name)],
        some (expectedTableMsg S f)⟩ := by
  rw [emit_check_field_array H S f ha]
  have h := check_lookup C f.name s Tc hv r lg
  rw [show ∀ a b c d : Stmt, [a, b, c, d] = [a, b] ++ [c, d] from fun _ _ _ _ => rfl,
    exec_append, h, exec_cons]
  have h2 : execStmt C (.instr (.expect_table (-1) (expectedTableMsg S f)))
      ⟨Table.get Tc (.str f.name) :: s, r, lg ++ [.gettable (.tbl Tc) (.str f.name)], none⟩ =
      ⟨Table.get Tc (.str f.name) :: s, r, lg ++ [.gettable (.tbl Tc) (.str f.name)],
        some (expectedTableMsg S f)⟩ := by
    simp [execStmt, step, valueAt_neg_one, hw, Machine.fail]
  rw [h2, exec_of_err]
  rfl

theorem check_loop (C : Ctx ν) (rd : String → Int → Stack → ν)
    (hread : ∀ c idx s, C.R.check c idx s = .ok (rd c idx s, s)) (name conv : String)
    (A : Table) (rest : Stack) (n : Nat) (r : NativeStruct ν) (lg : List Event) :
    execStmt C (.for_lt n [.lua_rawgeti (-1), .assign_elem name conv (-1), .lua_pop 1])
        ⟨.tbl A :: rest, r, lg, none⟩ =
      ⟨.tbl A :: rest,
        assignElems name (fun i => rd conv (-1) (Table.get A (.int i) :: .tbl A :: rest)) n r,
        lg ++ (List.range n).map (fun (i : Nat) => Event.rawgeti (.tbl A) i), none⟩ := by
  induction n with
  | zero => simp [for_lt_zero, assignElems]
  | succ n ih =>
    rw [for_lt_succ, ih]
    simp [execInstrs, step, hread, valueAt_neg_one, assignElems, List.range_succ]

theorem check_field_table (H : Helpers) (C : Ctx ν) (rd : String → Int → Stack → ν)
    (hread : ∀ c idx s, C.R.check c idx s = .ok (rd c idx s, s))
    (S : StructDesc) (f : FieldDesc)
    (ha : f.type.kind = "array") (s : Stack) (Tc A : Table)
    (hv : valueAt (.str f.name :: s) C.index = .tbl Tc)
    (hw : Table.get Tc (.str f.name) = .tbl A) (r : NativeStruct ν)
    (lg : List Event) :
    exec C (emit_check_field H S f) ⟨s, r, lg, none⟩ =
      ⟨.tbl A :: s,
        assignElems f.name
          (fun i => rd (H.field_from_lua f.type) (-1) (Table.get A (.int i) :: .tbl A :: s))
          f.type.arrayLen r,
        lg ++ (Event.gettable (.tbl Tc) (.str f.name) ::
          (List.range f.type.arrayLen).map (fun (i : Nat) => Event.rawgeti (.tbl A) i)),
        none⟩ := by
  rw [emit_check_field_array H S f ha]
  have h := check_lookup C f.name s Tc hv r lg
  rw [show ∀ a b c d : Stmt, [a, b, c, d] = [a, b] ++ [c, d] from fun _ _ _ _ => rfl,
    exec_append, h, exec_cons, hw]
  have h2 : execStmt C (.instr (.expect_table (-1) (expectedTableMsg S f)))
      ⟨.tbl A :: s, r, lg ++ [.gettable (.tbl Tc) (.str f.name)], none⟩ =
      ⟨.tbl A :: s, r, lg ++ [.gettable (.tbl Tc) (.str f.name)], none⟩ := by
    simp [execStmt, step, valueAt_neg_one, LuaVal.isTable]
  rw [h2, exec_cons, exec_nil, check_loop C rd hread]
  simp

theorem assignElems_succ (name : String) (g : Nat → ν) (n : Nat) (r : NativeStruct ν) :
    assignElems name g (n + 1) r = (assignElems name g n r).setElem name n (g n) := by
  simp [assignElems, List.range_succ, List.foldl_append]

theorem assignElems_elem_lt (name : String) (g : Nat → ν) (n : Nat) (r : NativeStruct ν)
    (i : Nat) (hi : i < n) : (assignElems name g n r).elem name i = g i := by
  induction n with
  | zero => omega
  | succ n ih =>
    rw [assignElems_succ]
    by_cases h : i = n
    · simp [NativeStruct.setElem, h]
    · have := ih (by omega)
      simp [NativeStruct.setElem, h, this]

theorem assignElems_elem_other (name : String) (g : Nat → ν) (n : Nat) (r : NativeStruct ν)
    (f : String) (i : Nat) (h : f ≠ name ∨ n ≤ i) :
    (assignElems name g n r).elem f i = r.elem f i := by
  induction n with
  | zero => rfl
  | succ n ih =>
    rw [assignElems_succ]
    have h1 : ¬ (f = name ∧ i = n) := by
      rintro ⟨h1, h2⟩
      rcases h with h | h
      · exact h h1
      · omega
    have := ih (by rcases h with h | h; exact Or.inl h; exact Or.inr (by omega))
    simp [NativeStruct.setElem, h1, this]

theorem assignElems_scalar (name : String) (g : Nat → ν) (n : Nat) (r : NativeStruct ν) :
    (assignElems name g n r).scalar = r.scalar := by
  induction n with
  | zero => rfl
  | succ n ih =>
    rw [assignElems_succ]
    simp [NativeStruct.setElem, ih]

end Check

/-! ## Sequence tables and field tables -/

theorem mem_seqPairs_keys (g : Nat → LuaVal) (n : Nat) (k : Key) :
    k ∈ (seqPairs g n).map Prod.fst ↔ ∃ i, i < n ∧ k = Key.int ((i : Int) + 1) := by
  simp only [seqPairs, List.map_map, List.mem_map, List.mem_range, Function.comp]
  constructor
  · rintro ⟨i, hi, rfl⟩; exact ⟨i, hi, rfl⟩
  · rintro ⟨i, hi, rfl⟩; exact ⟨i, hi, rfl⟩

theorem seqPairs_succ (g : Nat → LuaVal) (n : Nat) :
    seqPairs g (n + 1) = seqPairs g n ++ [(Key.int ((n : Int) + 1), g n)] := by
  simp [seqPairs, List.range_succ]

theorem seqPairs_keys_nodup (g : Nat → LuaVal) (n : Nat) :
    ((seqPairs g n).map Prod.fst).Nodup := by
  induction n with
  | zero => simp [seqPairs]
  | succ n ih =>
    rw [seqPairs_succ, List.map_append, List.nodup_append]
    refine ⟨ih, by simp, ?_⟩
    intro k hk hk'
    rw [mem_seqPairs_keys] at hk
    obtain ⟨i, hi, rfl⟩ := hk
    simp only [List.map_cons, List.map_nil, List.mem_singleton, Key.int.injEq] at hk'
    omega

theorem mem_seqPairs (g : Nat → LuaVal) (n i : Nat) (hi : i < n) :
    (Key.int ((i : Int) + 1), g i) ∈ seqPairs g n := by
  simp only [seqPairs, List.mem_map, List.mem_range]
  exact ⟨i, hi, rfl⟩

theorem get_seq_lt (g : Nat → LuaVal) (n i : Nat) (hi : i < n) :
    Table.get (Table.setAll [] (seqPairs g n)) (.int ((i : Int) + 1)) = g i :=
  Table.get_setAll_mem _ _ _ _ (seqPairs_keys_nodup g n) (mem_seqPairs g n i hi)

theorem get_seq_other (g : Nat → LuaVal) (n : Nat) (k : Key)
    (hk : ∀ i, i < n → k ≠ Key.int ((i : Int) + 1)) :
    Table.get (Table.setAll [] (seqPairs g n)) k = .nil := by
  rw [Table.get_setAll_not_mem]
  · rfl
  · rw [mem_seqPairs_keys]
    rintro ⟨i, hi, h⟩
    exact hk i hi h

theorem seq_eq_pairs (g : Nat → LuaVal) (n : Nat) (hg : ∀ i, i < n → (g i).isNil = false) :
    Table.setAll [] (seqPairs g n) = seqPairs g n := by
  rw [Table.setAll_eq_append _ _ (seqPairs_keys_nodup g n)]
  · simp
  · intro e he
    simp only [seqPairs, List.mem_map, List.mem_range] at he
    obtain ⟨i, hi, rfl⟩ := he
    exact hg i hi
  · simp

theorem pushedPairs_keys {ν : Type} (H : Helpers) (toLua : String → ν → LuaVal)
    (val : NativeStruct ν) (fs : List FieldDesc) :
    (pushedPairs H toLua val fs).map Prod.fst = fs.map (fun f => Key.str f.name) := by
  simp [pushedPairs, Function.comp]

theorem keys_nodup_of_names {fs : List FieldDesc} (h : (fs.map (fun f => f.name)).Nodup) :
    (fs.map (fun f => Key.str f.name)).Nodup := by
  have : fs.map (fun f => Key.str f.name) = (fs.map (fun f => f.name)).map Key.str := by
    simp [Function.comp]
  rw [this]
  exact List.Nodup.map (fun a b hab => by injection hab) h

theorem get_pushed {ν : Type} (H : Helpers) (toLua : String → ν → LuaVal)
    (val : NativeStruct ν) (fs : List FieldDesc) (hnd : (fs.map (fun f => f.name)).Nodup)
    (f : FieldDesc) (hf : f ∈ fs) :
    Table.get (Table.setAll [] (pushedPairs H toLua val fs)) (.str f.name) =
      pushedValue H toLua val f := by
  apply Table.get_setAll_mem
  · rw [pushedPairs_keys]; exact keys_nodup_of_names hnd
  · simp only [pushedPairs, List.mem_map]
    exact ⟨f, hf, rfl⟩

theorem get_pushed_other {ν : Type} (H : Helpers) (toLua : String → ν → LuaVal)
    (val : NativeStruct ν) (fs : List FieldDesc) (k : Key)
    (hk : k ∉ fs.map (fun f => Key.str f.name)) :
    Table.get (Table.setAll [] (pushedPairs H toLua val fs)) k = .nil := by
  rw [Table.get_setAll_not_mem]
  · rfl
  · rw [pushedPairs_keys]; exact hk

theorem pushLog_settable {ν : Type} (H : Helpers) (toLua : String → ν → LuaVal)
    (val : NativeStruct ν) (base : Nat) (fs : List FieldDesc) :
    (fs.flatMap (pushLog H toLua val base)).filter Event.isSettable =
      fs.map (fun f => Event.settable (base + 1) (.str f.name) (pushedValue H toLua val f)) := by
  induction fs with
  | nil => rfl
  | cons f fs ih =>
    rw [List.flatMap_cons, List.filter_append, ih]
    have : (pushLog H toLua val base f).filter Event.isSettable =
        [Event.settable (base + 1) (.str f.name) (pushedValue H toLua val f)] := by
      unfold pushLog
      rw [List.filter_append]
      have h0 : ∀ l : List Nat, (l.map (fun (i : Nat) =>
          Event.rawseti (base + 3) ((i : Int) + 1)
            (toLua (H.field_to_lua f.type) (val.elem f.name i)))).filter Event.isSettable
          = [] := by
        intro l
        induction l with
        | nil => rfl
        | cons a l ihl => simp [List.filter_cons, Event.isSettable, ihl]
      by_cases ha : f.type.kind = "array"
      · rw [if_pos ha, h0]; rfl
      · rw [if_neg ha]; rfl
    rw [this]; rfl

/-! ## Claims about the serialize routine -/

/-- C8: for a struct with distinct field names, when every push conversion
pushes exactly one value, `lua_push<Struct>` leaves a fresh table on top of
the entry stack; its only `lua_settable` calls are one per field, in declared
order, each on that fresh table (absolute index entry height + 1) with the
field's name as key and the field's converted value as value; afterwards each
field name reads as that converted value and every other key reads as nil, and
when no converted value is nil the table's entries are exactly the pairs
(field name, converted value) in field order. -/
theorem serialize_inserts_each_field {ν : Type} (H : Helpers) (R : Runtime ν)
    (toLua : String → ν → LuaVal) (S : StructDesc) (val : NativeStruct ν) (st : Stack)
    (r : NativeStruct ν)
    (hp : ∀ c x s, R.push c x s = toLua c x :: s)
    (hnd : (S.fields.map (fun f => f.name)).Nodup) :
    ∃ T : Table,
      (lua_pushStruct H R S val (Machine.init st r)).stack = .tbl T :: st ∧
      (lua_pushStruct H R S val (Machine.init st r)).err = none ∧
      (lua_pushStruct H R S val (Machine.init st r)).log.filter Event.isSettable =
        S.fields.map (fun f =>
          Event.settable (st.length + 1) (.str f.name) (pushedValue H toLua val f)) ∧
      (∀ f ∈ S.fields, Table.get T (.str f.name) = pushedValue H toLua val f) ∧
      (∀ k, k ∉ S.fields.map (fun f => Key.str f.name) → Table.get T k = .nil) ∧
      ((∀ f ∈ S.fields, (pushedValue H toLua val f).isNil = false) →
        T = S.fields.map (fun f => (Key.str f.name, pushedValue H toLua val f))) := by
  refine ⟨Table.setAll [] (pushedPairs H toLua val S.fields), ?_⟩
  rw [Machine.init, lua_pushStruct_eq H R toLua hp]
  refine ⟨rfl, rfl, ?_, ?_, ?_, ?_⟩
  · simp only [List.nil_append]
    exact pushLog_settable H toLua val st.length S.fields
  · intro f hf
    exact get_pushed H toLua val S.fields hnd f hf
  · intro k hk
    exact get_pushed_other H toLua val S.fields k hk
  · intro hnil
    rw [Table.setAll_eq_append]
    · simp [pushedPairs]
    · rw [pushedPairs_keys]; exact keys_nodup_of_names hnd
    · intro e he
      simp only [pushedPairs, List.mem_map] at he
      obtain ⟨f, hf, rfl⟩ := he
      exact hnil f hf
    · simp

/-- Witness for C8: `Point{x, y}` with the numeric conversions. -/
theorem serialize_inserts_each_field_witness :
    ∃ T : Table,
      (lua_pushStruct baseHelpers numRuntime pointS (pointV 3 4)
        (Machine.init [.str "below"] zeroV)).stack = [.tbl T, .str "below"] ∧
      Table.get T (.str "x") = .num 3 ∧ Table.get T (.str "y") = .num 4 := by
  obtain ⟨T, h1, _, _, h4, _, _⟩ :=
    serialize_inserts_each_field baseHelpers numRuntime (fun _ x => .num x) pointS
      (pointV 3 4) [.str "below"] zeroV (fun _ _ _ => rfl) (by decide)
  exact ⟨T, h1, h4 ⟨"x", numberT⟩ (by simp [pointS]), h4 ⟨"y", numberT⟩ (by simp [pointS])⟩

/-- C7: for an array field of declared length n, when every push conversion
pushes exactly one value, `lua_push<Struct>` inserts under the field's name a
nested table A built by exactly n `lua_rawseti` writes, at keys 1..n in order,
the write at key i + 1 storing the conversion of native element i; A reads
that conversion at key i + 1 and nil at every other key, and when no element
converts to nil A has exactly the n entries (i + 1, conversion of element i).
With distinct field names the finished table maps the field's name to A. -/
theorem serialize_array_is_one_indexed {ν : Type} (H : Helpers) (R : Runtime ν)
    (toLua : String → ν → LuaVal) (S : StructDesc) (val : NativeStruct ν) (st : Stack)
    (r : NativeStruct ν) (f : FieldDesc)
    (hp : ∀ c x s, R.push c x s = toLua c x :: s)
    (hf : f ∈ S.fields) (ha : f.type.kind = "array") :
    ∃ A : Table,
      pushedValue H toLua val f = .tbl A ∧
      pushLog H toLua val st.length f =
        (List.range f.type.arrayLen).map (fun (i : Nat) =>
          Event.rawseti (st.length + 3) ((i : Int) + 1)
            (toLua (H.field_to_lua f.type) (val.elem f.name i))) ++
        [Event.settable (st.length + 1) (.str f.name) (.tbl A)] ∧
      (∃ l₁ l₂, (lua_pushStruct H R S val (Machine.init st r)).log =
        l₁ ++ pushLog H toLua val st.length f ++ l₂) ∧
      (∀ i, i < f.type.arrayLen →
        Table.get A (.int ((i : Int) + 1)) =
          toLua (H.field_to_lua f.type) (val.elem f.name i)) ∧
      (∀ k, (∀ i, i < f.type.arrayLen → k ≠ Key.int ((i : Int) + 1)) →
        Table.get A k = .nil) ∧
      ((∀ i, i < f.type.arrayLen →
          (toLua (H.field_to_lua f.type) (val.elem f.name i)).isNil = false) →
        A = (List.range f.type.arrayLen).map (fun (i : Nat) =>
          (Key.int ((i : Int) + 1), toLua (H.field_to_lua f.type) (val.elem f.name i)))) ∧
      ((S.fields.map (fun f => f.name)).Nodup →
        ∃ T, (lua_pushStruct H R S val (Machine.init st r)).stack = .tbl T :: st ∧
          Table.get T (.str f.name) = .tbl A) := by
  refine ⟨Table.setAll [] (seqPairs (fun i => toLua (H.field_to_lua f.type)
    (val.elem f.name i)) f.type.arrayLen), ?_⟩
  have hpv : pushedValue H toLua val f = .tbl (Table.setAll [] (seqPairs (fun i =>
      toLua (H.field_to_lua f.type) (val.elem f.name i)) f.type.arrayLen)) := by
    simp [pushedValue, ha]
  rw [Machine.init, lua_pushStruct_eq H R toLua hp]
  refine ⟨hpv, ?_, ?_, ?_, ?_, ?_, ?_⟩
  · simp [pushLog, ha, pushedValue]
  · obtain ⟨pre, post, hsplit⟩ := List.append_of_mem hf
    refine ⟨pre.flatMap (pushLog H toLua val st.length),
      post.flatMap (pushLog H toLua val st.length), ?_⟩
    simp [hsplit, List.flatMap_append, List.flatMap_cons]
  · intro i hi
    exact get_seq_lt _ _ i hi
  · intro k hk
    exact get_seq_other _ _ k hk
  · intro hnil
    rw [seq_eq_pairs _ _ hnil]; rfl
  · intro hnd
    refine ⟨_, rfl, ?_⟩
    rw [get_pushed H toLua val S.fields hnd f hf, hpv]

/-- Witness for C7: a length-4 array field holding 5, 6, 7, 8. -/
theorem serialize_array_is_one_indexed_witness :
    ∃ A : Table,
      pushedValue baseHelpers (fun _ x => LuaVal.num x) (arrayV [5, 6, 7, 8])
        ⟨"v", ⟨"array", "number", [4]⟩⟩ = .tbl A ∧
      A = [(.int 1, .num 5), (.int 2, .num 6), (.int 3, .num 7), (.int 4, .num 8)] := by
  obtain ⟨A, h1, _, _, _, _, h6, _⟩ :=
    serialize_array_is_one_indexed baseHelpers numRuntime (fun _ x => .num x) (arrayS 4)
      (arrayV [5, 6, 7, 8]) [] zeroV ⟨"v", ⟨"array", "number", [4]⟩⟩ (fun _ _ _ => rfl)
      (by simp [arrayS]) rfl
  exact ⟨A, h1, h6 (fun i _ => rfl)⟩

theorem push_loop_weak {ν : Type} (C : Ctx ν)
    (hw : ∀ c x s, ∃ w, C.R.push c x s = w :: s) (c : String) (b : Bool) (name : String)
    (rest : Stack) (r : NativeStruct ν) (n : Nat) (A : Table) (lg : List Event) :
    ∃ A' lg', execStmt C (.for_lt n [.lua_push c b (.elem name), .lua_rawseti_succ (-2)])
        ⟨.tbl A :: rest, r, lg, none⟩ = ⟨.tbl A' :: rest, r, lg', none⟩ := by
  induction n with
  | zero => exact ⟨A, lg, rfl⟩
  | succ n ih =>
    obtain ⟨A', lg', h⟩ := ih
    obtain ⟨w, hw'⟩ := hw c (C.val.elem name n) (.tbl A' :: rest)
    rw [for_lt_succ, h]
    refine ⟨Table.set A' (.int ((n : Int) + 1)) w,
      lg' ++ [.rawseti (rest.length + 1) ((n : Int) + 1) w], ?_⟩
    simp [execInstrs, step, hw', Machine.store, slotOf_neg_two, Src.eval]

theorem push_field_weak {ν : Type} (H : Helpers) (C : Ctx ν)
    (hw : ∀ c x s, ∃ w, C.R.push c x s = w :: s) (f : FieldDesc)
    (T : Table) (st : Stack) (r : NativeStruct ν) (lg : List Event) :
    ∃ T' lg', exec C (emit_push_field H f) ⟨.tbl T :: st, r, lg, none⟩ =
      ⟨.tbl T' :: st, r, lg', none⟩ := by
  unfold emit_push_field
  by_cases ha : f.type.kind = "array"
  · simp only [if_pos ha, List.singleton_append, List.cons_append, List.nil_append, exec_cons,
      exec_nil]
    simp only [execStmt, step, Option.isSome_none, Bool.false_eq_true, if_false]
    obtain ⟨A', lg', h⟩ := push_loop_weak C hw (H.field_to_lua f.type)
      (decide (f.type.base = "Matrix")) f.name (.str f.name :: .tbl T :: st) r
      f.type.arrayLen [] lg
    simp only [execStmt] at h
    rw [h]
    exact ⟨Table.set T (.str f.name) (.tbl A'),
      lg' ++ [.settable (st.length + 1) (.str f.name) (.tbl A')],
      by simp [Machine.store, slotOf_neg_three, LuaVal.toKey]⟩
  · by_cases ht : f.type.kind = "typedef"
    · obtain ⟨w, hw'⟩ := hw (H.field_to_lua f.type) (C.val.scalar f.name)
        (.str f.name :: .tbl T :: st)
      exact ⟨Table.set T (.str f.name) w,
        lg ++ [.settable (st.length + 1) (.str f.name) w],
        by simp [ha, ht, exec, execStmt, step, hw', Machine.store, slotOf_neg_three,
          LuaVal.toKey, Src.eval]⟩
    · obtain ⟨w, hw'⟩ := hw (H.field_to_lua f.type) (C.val.scalar f.name)
        (.str f.name :: .tbl T :: st)
      exact ⟨Table.set T (.str f.name) w,
        lg ++ [.settable (st.length + 1) (.str f.name) w],
        by simp [ha, ht, exec, execStmt, step, hw', Machine.store, slotOf_neg_three,
          LuaVal.toKey, Src.eval]⟩

theorem push_fields_weak {ν : Type} (H : Helpers) (C : Ctx ν)
    (hw : ∀ c x s, ∃ w, C.R.push c x s = w :: s) (fs : List FieldDesc)
    (T : Table) (st : Stack) (r : NativeStruct ν) (lg : List Event) :
    ∃ T' lg', exec C (fs.flatMap (emit_push_field H)) ⟨.tbl T :: st, r, lg, none⟩ =
      ⟨.tbl T' :: st, r, lg', none⟩ := by
  induction fs generalizing T lg with
  | nil => exact ⟨T, lg, rfl⟩
  | cons f fs ih =>
    obtain ⟨T1, lg1, h1⟩ := push_field_weak H C hw f T st r lg
    obtain ⟨T2, lg2, h2⟩ := ih T1 lg1
    exact ⟨T2, lg2, by rw [exec_flatMap_cons, h1, h2]⟩

/-- C17: when every push conversion pushes exactly one value,
`lua_push<Struct>` returns normally and leaves the entry stack with exactly
one new value, a table, on top of it: every slot below is as on entry and the
height has grown by one. -/
theorem serialize_stack_effect {ν : Type} (H : Helpers) (R : Runtime ν) (S : StructDesc)
    (val : NativeStruct ν) (m : Machine ν)
    (hw : ∀ c x s, ∃ w, R.push c x s = w :: s) (hm : m.err = none) :
    (∃ T : Table, (lua_pushStruct H R S val m).stack = .tbl T :: m.stack) ∧
      (lua_pushStruct H R S val m).stack.length = m.stack.length + 1 ∧
      (lua_pushStruct H R S val m).err = none := by
  obtain ⟨st, r, lg, e⟩ := m
  simp only at hm
  subst hm
  unfold lua_pushStruct emit_lua_push
  rw [exec_append]
  have h1 : exec (⟨R, val, 0⟩ : Ctx ν) [.instr .lua_newtable] ⟨st, r, lg, none⟩ =
      ⟨.tbl [] :: st, r, lg, none⟩ := by
    simp [exec, execStmt, step]
  obtain ⟨T, lg', h2⟩ := push_fields_weak H ⟨R, val, 0⟩ hw S.fields [] st r lg
  rw [h1, h2]
  exact ⟨⟨T, rfl⟩, by simp, rfl⟩

/-- Witness for C17: serializing a length-4 array struct above one slot. -/
theorem serialize_stack_effect_witness :
    (∃ T : Table, (lua_pushStruct baseHelpers numRuntime (arrayS 4) (arrayV [5, 6, 7, 8])
        (Machine.init [.str "below"] zeroV)).stack = [.tbl T, .str "below"]) ∧
      (lua_pushStruct baseHelpers numRuntime (arrayS 4) (arrayV [5, 6, 7, 8])
        (Machine.init [.str "below"] zeroV)).stack.length = 2 :=
  let h := serialize_stack_effect baseHelpers numRuntime (arrayS 4) (arrayV [5, 6, 7, 8])
    (Machine.init [.str "below"] zeroV) (fun _ x _ => ⟨.num x, rfl⟩) rfl
  ⟨h.1, h.2.1⟩

/-! ## Claims about serialize followed by deserialize -/

theorem check_fields_scalar {ν : Type} (H : Helpers) (C : Ctx ν) (S : StructDesc)
    (Tc : Table) (st : Stack) (hidx : C.index = (st.length : Int) + 1) (xs : FieldDesc → ν)
    (fs : List FieldDesc) (hsc : ∀ f ∈ fs, f.type.kind ≠ "array")
    (hconv : ∀ f ∈ fs, ∀ s, C.R.check (H.field_from_lua f.type) (-1)
      (Table.get Tc (.str f.name) :: s) = .ok (xs f, Table.get Tc (.str f.name) :: s))
    (ext : List LuaVal) (r : NativeStruct ν) (lg : List Event) :
    exec C (fs.flatMap (emit_check_field H S)) ⟨ext ++ .tbl Tc :: st, r, lg, none⟩ =
      ⟨(fs.map (fun f => Table.get Tc (.str f.name))).reverse ++ ext ++ .tbl Tc :: st,
        fs.foldl (fun r f => r.setScalar f.name (xs f)) r,
        lg ++ fs.map (fun f => Event.gettable (.tbl Tc) (.str f.name)), none⟩ := by
  induction fs generalizing ext r lg with
  | nil => simp [exec_nil]
  | cons f fs ih =>
    have hv : valueAt (.str f.name :: (ext ++ .tbl Tc :: st)) C.index = .tbl Tc := by
      rw [hidx]
      exact valueAt_abs (.str f.name :: ext) (.tbl Tc) st
    rw [exec_flatMap_cons,
      check_field_scalar H C S f (hsc f (List.mem_cons_self _ _)) _ Tc hv,
      hconv f (List.mem_cons_self _ _)]
    have := ih (fun g hg => hsc g (List.mem_cons_of_mem _ hg))
      (fun g hg => hconv g (List.mem_cons_of_mem _ hg))
      (Table.get Tc (.str f.name) :: ext) (r.setScalar f.name (xs f))
      (lg ++ [.gettable (.tbl Tc) (.str f.name)])
    simp only [List.cons_append] at this
    rw [this]
    simp

theorem foldl_setScalar_other {ν : Type} (xs : FieldDesc → ν) (fs : List FieldDesc)
    (r : NativeStruct ν) (g : String) (hg : g ∉ fs.map (fun f => f.name)) :
    (fs.foldl (fun r f => r.setScalar f.name (xs f)) r).scalar g = r.scalar g := by
  induction fs generalizing r with
  | nil => rfl
  | cons f fs ih =>
    simp only [List.map_cons, List.mem_cons, not_or] at hg
    rw [List.foldl_cons, ih _ hg.2]
    simp [NativeStruct.setScalar, hg.1]

theorem foldl_setScalar_mem {ν : Type} (xs : FieldDesc → ν) (fs : List FieldDesc)
    (r : NativeStruct ν) (hnd : (fs.map (fun f => f.name)).Nodup) (f : FieldDesc)
    (hf : f ∈ fs) :
    (fs.foldl (fun r f => r.setScalar f.name (xs f)) r).scalar f.name = xs f := by
  induction fs generalizing r with
  | nil => simp at hf
  | cons g fs ih =>
    simp only [List.map_cons, List.nodup_cons] at hnd
    rw [List.foldl_cons]
    rcases List.mem_cons.1 hf with h | h
    · subst h
      rw [foldl_setScalar_other _ _ _ _ hnd.1]
      simp [NativeStruct.setScalar]
    · exact ih _ hnd.2 h

/-- C3: for a struct whose fields are all scalars with distinct names, when
every push conversion pushes exactly one value and the check conversion of a
type reads that value back, `lua_push<Struct>` produces a table on top of the
stack that maps each field name to the converted member and holds no other
key, and `lua_check<Struct>` called with that table's absolute index returns
normally with every member equal to the original one. -/
theorem scalar_struct_roundtrip {ν : Type} (H : Helpers) (R : Runtime ν)
    (toLua : String → ν → LuaVal) (S : StructDesc) (val : NativeStruct ν) (st : Stack)
    (r : NativeStruct ν)
    (hp : ∀ c x s, R.push c x s = toLua c x :: s)
    (hinv : ∀ t x s, R.check (H.field_from_lua t) (-1) (toLua (H.field_to_lua t) x :: s) =
      .ok (x, toLua (H.field_to_lua t) x :: s))
    (hsc : ∀ f ∈ S.fields, f.type.kind ≠ "array")
    (hnd : (S.fields.map (fun f => f.name)).Nodup) :
    (∃ T : Table,
      (lua_pushStruct H R S val (Machine.init st r)).stack = .tbl T :: st ∧
      (∀ f ∈ S.fields,
        Table.get T (.str f.name) = toLua (H.field_to_lua f.type) (val.scalar f.name)) ∧
      (∀ k, k ∉ S.fields.map (fun f => Key.str f.name) → Table.get T k = .nil)) ∧
    (lua_checkStruct H R S ((st.length : Int) + 1)
      (lua_pushStruct H R S val (Machine.init st r))).err = none ∧
    ∀ f ∈ S.fields,
      (lua_checkStruct H R S ((st.length : Int) + 1)
        (lua_pushStruct H R S val (Machine.init st r))).result.scalar f.name =
        val.scalar f.name := by
  have hval : ∀ f ∈ S.fields,
      pushedValue H toLua val f = toLua (H.field_to_lua f.type) (val.scalar f.name) := by
    intro f hf
    simp [pushedValue, hsc f hf]
  rw [Machine.init, lua_pushStruct_eq H R toLua hp]
  refine ⟨⟨_, rfl, ?_, ?_⟩, ?_⟩
  · intro f hf
    rw [get_pushed H toLua val S.fields hnd f hf, hval f hf]
  · intro k hk
    exact get_pushed_other H toLua val S.fields k hk
  · unfold lua_checkStruct emit_lua_check
    have := check_fields_scalar H ⟨R, r, (st.length : Int) + 1⟩ S
      (Table.setAll [] (pushedPairs H toLua val S.fields)) st rfl
      (fun f => val.scalar f.name) S.fields hsc
      (by
        intro f hf s
        rw [get_pushed H toLua val S.fields hnd f hf, hval f hf]
        exact hinv f.type (val.scalar f.name) s)
      [] r ([] ++ S.fields.flatMap (pushLog H toLua val st.length))
    simp only [List.nil_append] at this
    simp only [List.nil_append]
    rw [this]
    refine ⟨rfl, ?_⟩
    intro f hf
    exact foldl_setScalar_mem (fun f => val.scalar f.name) S.fields r hnd f hf

/-- Witness for C3: `Point{x, y}` with value (3, 4) (end-to-end scenario 1). -/
theorem scalar_struct_roundtrip_witness :
    (lua_pushStruct baseHelpers numRuntime pointS (pointV 3 4) (Machine.init [] zeroV)).stack =
      [.tbl [(.str "x", .num 3), (.str "y", .num 4)]] ∧
    (lua_checkStruct baseHelpers numRuntime pointS 1
      (lua_pushStruct baseHelpers numRuntime pointS (pointV 3 4)
        (Machine.init [] zeroV))).result.scalar "x" = 3 ∧
    (lua_checkStruct baseHelpers numRuntime pointS 1
      (lua_pushStruct baseHelpers numRuntime pointS (pointV 3 4)
        (Machine.init [] zeroV))).result.scalar "y" = 4 :=
  let h := scalar_struct_roundtrip baseHelpers numRuntime (fun _ x => .num x) pointS
    (pointV 3 4) [] zeroV (fun _ _ _ => rfl)
    (fun _ _ _ => by simp [numRuntime, valueAt_neg_one]) (by decide) (by decide)
  ⟨rfl, h.2.2 ⟨"x", numberT⟩ (by simp [pointS]), h.2.2 ⟨"y", numberT⟩ (by simp [pointS])⟩

/-- C2 (evaluation at the failing input): for a struct with one array field
of length 2 holding 5 and 6, with numeric conversions whose check reads back
what push pushed, `lua_push<Struct>` writes the elements at keys 1 and 2 while
`lua_check<Struct>` reads keys 0 and 1: the call returns normally with
element 0 equal to 0 and element 1 equal to 5, not with 5 and 6; with a
strict numeric check the same call fails on the nil it reads at key 0. -/
theorem array_roundtrip_shifts_elements :
    (∀ (t : TypeDesc) (x : Int) (s : Stack),
      numRuntime.check (baseHelpers.field_from_lua t) (-1)
        (numRuntime.push (baseHelpers.field_to_lua t) x s) =
        .ok (x, numRuntime.push (baseHelpers.field_to_lua t) x s)) ∧
    (lua_pushStruct baseHelpers numRuntime (arrayS 2) (arrayV [5, 6])
      (Machine.init [] zeroV)).stack =
      [.tbl [(.str "v", .tbl [(.int 1, .num 5), (.int 2, .num 6)])]] ∧
    (lua_checkStruct baseHelpers numRuntime (arrayS 2) 1
      (lua_pushStruct baseHelpers numRuntime (arrayS 2) (arrayV [5, 6])
        (Machine.init [] zeroV))).err = none ∧
    (lua_checkStruct baseHelpers numRuntime (arrayS 2) 1
      (lua_pushStruct baseHelpers numRuntime (arrayS 2) (arrayV [5, 6])
        (Machine.init [] zeroV))).result.elem "v" 0 = 0 ∧
    (lua_checkStruct baseHelpers numRuntime (arrayS 2) 1
      (lua_pushStruct baseHelpers numRuntime (arrayS 2) (arrayV [5, 6])
        (Machine.init [] zeroV))).result.elem "v" 1 = 5 ∧
    (arrayV [5, 6]).elem "v" 0 = 5 ∧ (arrayV [5, 6]).elem "v" 1 = 6 ∧
    (lua_checkStruct baseHelpers strictRuntime (arrayS 2) 1
      (lua_pushStruct baseHelpers strictRuntime (arrayS 2) (arrayV [5, 6])
        (Machine.init [] zeroV))).err = some "number expected, got nil" :=
  ⟨fun _ _ _ => by simp [numRuntime, valueAt_neg_one], rfl, rfl, rfl, rfl, rfl, rfl,
    by decide⟩

/-! ## Frame properties of execution -/

theorem store_result {ν : Type} (m : Machine ν) (idx : Int) (k : Key) (v : LuaVal)
    (npop : Nat) (mk : Nat → Event) : (m.store idx k v npop mk).result = m.result := by
  unfold Machine.store
  split
  · rfl
  · split <;> rfl

theorem step_scalar_frame {ν : Type} (C : Ctx ν) (i : Nat) (c : Instr) (m : Machine ν)
    (g : String) (hc : ∀ conv idx, c ≠ .assign_field g conv idx) :
    (step C i c m).result.scalar g = m.result.scalar g := by
  unfold step
  split
  · rfl
  · cases c with
    | assign_field name conv idx =>
      have hne : ¬ (g = name) := fun h => hc conv idx (by rw [h])
      simp only
      split
      · simp [NativeStruct.setScalar, hne]
      · rfl
    | assign_elem name conv idx =>
      simp only
      split
      · rfl
      · rfl
    | lua_rawseti_succ idx => simp only; split <;> simp [store_result, Machine.fail]
    | lua_settable idx =>
      simp only
      split
      · split <;> simp [store_result, Machine.fail]
      · rfl
    | lua_setfield idx k => simp only; split <;> simp [store_result, Machine.fail]
    | lua_gettable idx =>
      simp only
      split
      · split <;> rfl
      · rfl
    | expect_table idx msg => simp only; split <;> rfl
    | lua_rawgeti idx => simp only; split <;> rfl
    | _ => rfl

theorem execInstrs_scalar_frame {ν : Type} (C : Ctx ν) (i : Nat) (body : List Instr)
    (g : String) (hb : ∀ c ∈ body, ∀ conv idx, c ≠ Instr.assign_field g conv idx)
    (m : Machine ν) : (execInstrs C i body m).result.scalar g = m.result.scalar g := by
  induction body generalizing m with
  | nil => rfl
  | cons c cs ih =>
    show (execInstrs C i cs (step C i c m)).result.scalar g = _
    rw [ih (fun c hc => hb c (List.mem_cons_of_mem _ hc)),
      step_scalar_frame C i c m g (hb c (List.mem_cons_self _ _))]

theorem for_lt_scalar_frame {ν : Type} (C : Ctx ν) (body : List Instr)
    (g : String) (hb : ∀ c ∈ body, ∀ conv idx, c ≠ Instr.assign_field g conv idx)
    (n : Nat) (m : Machine ν) :
    (execStmt C (.for_lt n body) m).result.scalar g = m.result.scalar g := by
  induction n with
  | zero => rfl
  | succ n ih => rw [for_lt_succ, execInstrs_scalar_frame C n body g hb, ih]

theorem check_field_scalar_frame {ν : Type} (H : Helpers) (C : Ctx ν) (S : StructDesc)
    (f : FieldDesc) (g : String) (hg : f.name ≠ g) (m : Machine ν) :
    (exec C (emit_check_field H S f) m).result.scalar g = m.result.scalar g := by
  by_cases ha : f.type.kind = "array"
  · rw [emit_check_field_array H S f ha]
    simp only [exec_cons, exec_nil]
    rw [for_lt_scalar_frame C _ g (by simp)]
    simp only [execStmt]
    rw [step_scalar_frame _ _ _ _ _ (by simp), step_scalar_frame _ _ _ _ _ (by simp),
      step_scalar_frame _ _ _ _ _ (by simp)]
  · rw [emit_check_field_scalar H S f ha]
    simp only [exec_cons, exec_nil, execStmt]
    rw [step_scalar_frame _ _ _ _ _ (by simp [hg]), step_scalar_frame _ _ _ _ _ (by simp),
      step_scalar_frame _ _ _ _ _ (by simp)]

theorem check_fields_scalar_frame {ν : Type} (H : Helpers) (C : Ctx ν) (S : StructDesc)
    (fs : List FieldDesc) (g : String) (hg : g ∉ fs.map (fun f => f.name)) (m : Machine ν) :
    (exec C (fs.flatMap (emit_check_field H S)) m).result.scalar g = m.result.scalar g := by
  induction fs generalizing m with
  | nil => rfl
  | cons f fs ih =>
    simp only [List.map_cons, List.mem_cons, not_or] at hg
    rw [exec_flatMap_cons, ih hg.2, check_field_scalar_frame H C S f g (fun h => hg.1 h.symm)]

/-! ## Position of a field inside the deserialize routine -/

theorem lua_checkStruct_eq_checkAfter {ν : Type} (H : Helpers) (R : Runtime ν)
    (S : StructDesc) (idx : Int) (m : Machine ν) :
    lua_checkStruct H R S idx m = checkAfter H R S idx S.fields m := rfl

theorem checkAfter_append {ν : Type} (H : Helpers) (R : Runtime ν) (S : StructDesc)
    (idx : Int) (fs gs : List FieldDesc) (m : Machine ν) :
    checkAfter H R S idx (fs ++ gs) m =
      exec ⟨R, m.result, idx⟩ (gs.flatMap (emit_check_field H S))
        (checkAfter H R S idx fs m) := by
  unfold checkAfter
  rw [List.flatMap_append, exec_append]

theorem checkAfter_snoc {ν : Type} (H : Helpers) (R : Runtime ν) (S : StructDesc)
    (idx : Int) (fs : List FieldDesc) (f : FieldDesc) (m : Machine ν) :
    checkAfter H R S idx (fs ++ [f]) m =
      exec ⟨R, m.result, idx⟩ (emit_check_field H S f) (checkAfter H R S idx fs m) := by
  rw [checkAfter_append]
  simp [List.flatMap_cons]

theorem checkAfter_split {ν : Type} (H : Helpers) (R : Runtime ν) (S : StructDesc)
    (idx : Int) (pre post : List FieldDesc) (f : FieldDesc) (m : Machine ν) :
    checkAfter H R S idx (pre ++ f :: post) m =
      exec ⟨R, m.result, idx⟩ (post.flatMap (emit_check_field H S))
        (checkAfter H R S idx (pre ++ [f]) m) := by
  rw [show pre ++ f :: post = (pre ++ [f]) ++ post by simp, checkAfter_append]

theorem Machine.eta_none {ν : Type} (m : Machine ν) (h : m.err = none) :
    m = ⟨m.stack, m.result, m.log, none⟩ := by
  obtain ⟨s, r, lg, e⟩ := m
  simp only at h
  subst h
  rfl

/-! ## Claims about missing keys and non-table array values -/

/-- C4 (counterexample): a struct with an array field, deserialized from a
container with no entry for that field, raises an error. -/
theorem missing_array_key_raises :
    Table.get [] (.str "v") = .nil ∧
    (lua_checkStruct baseHelpers numRuntime (arrayS 4) 1
      (Machine.init [.tbl []] zeroV)).err = some "Expected a table for Quad.v" :=
  ⟨rfl, by decide⟩

/-- C4 (amended): let the routine reach field f without error, with `index`
denoting a table that has no entry for f's name.  If f is an array field, the
routine fails with "Expected a table for S.f".  If f is a scalar field, the
routine raises no error of its own at f: it applies f's check conversion to
nil, and when that conversion returns x the run continues past f, and the
returned aggregate has x in member f provided no later field has f's name. -/
theorem missing_key_behaviour {ν : Type} (H : Helpers) (R : Runtime ν) (S : StructDesc)
    (idx : Int) (m : Machine ν) (pre post : List FieldDesc) (f : FieldDesc) (Tc : Table)
    (hs : S.fields = pre ++ f :: post)
    (hm : (checkAfter H R S idx pre m).err = none)
    (hv : valueAt (.str f.name :: (checkAfter H R S idx pre m).stack) idx = .tbl Tc)
    (habs : Table.get Tc (.str f.name) = .nil) :
    (f.type.kind = "array" →
      (lua_checkStruct H R S idx m).err = some (expectedTableMsg S f)) ∧
    (f.type.kind ≠ "array" →
      ∀ x s', R.check (H.field_from_lua f.type) (-1)
          (.nil :: (checkAfter H R S idx pre m).stack) = .ok (x, s') →
        (checkAfter H R S idx (pre ++ [f]) m).err = none ∧
        (checkAfter H R S idx (pre ++ [f]) m).result.scalar f.name = x ∧
        (f.name ∉ post.map (fun g => g.name) →
          (lua_checkStruct H R S idx m).result.scalar f.name = x)) := by
  have hsplit : lua_checkStruct H R S idx m =
      exec ⟨R, m.result, idx⟩ (post.flatMap (emit_check_field H S))
        (checkAfter H R S idx (pre ++ [f]) m) := by
    rw [lua_checkStruct_eq_checkAfter, hs, checkAfter_split]
  have heta := Machine.eta_none _ hm
  constructor
  · intro ha
    have hf : checkAfter H R S idx (pre ++ [f]) m =
        ⟨Table.get Tc (.str f.name) :: (checkAfter H R S idx pre m).stack,
          (checkAfter H R S idx pre m).result,
          (checkAfter H R S idx pre m).log ++ [.gettable (.tbl Tc) (.str f.name)],
          some (expectedTableMsg S f)⟩ := by
      rw [checkAfter_snoc, heta]
      exact check_field_not_table H ⟨R, m.result, idx⟩ S f ha _ Tc hv
        (by rw [habs]; rfl) _ _
    rw [hsplit, hf]
    rw [exec_of_err _ _ _ (by rfl)]
  · intro ha x s' hc
    have hf : checkAfter H R S idx (pre ++ [f]) m =
        ⟨s', (checkAfter H R S idx pre m).result.setScalar f.name x,
          (checkAfter H R S idx pre m).log ++ [.gettable (.tbl Tc) (.str f.name)],
          none⟩ := by
      rw [checkAfter_snoc, heta]
      have := check_field_scalar H ⟨R, m.result, idx⟩ S f ha _ Tc hv
        (checkAfter H R S idx pre m).result (checkAfter H R S idx pre m).log
      rw [habs] at this
      simp only at this hc
      rw [this, hc]
    refine ⟨by rw [hf], by rw [hf]; simp [NativeStruct.setScalar], ?_⟩
    intro hpost
    rw [hsplit, check_fields_scalar_frame H _ S post f.name hpost, hf]
    simp [NativeStruct.setScalar]

/-- Witness for C4 (amended): `Point{x, y}` deserialized from a table holding
only y. -/
theorem missing_key_behaviour_witness :
    (pointS.fields = [] ++ ⟨"x", numberT⟩ :: [⟨"y", numberT⟩]) ∧
    (lua_checkStruct baseHelpers numRuntime pointS 1
      (Machine.init [.tbl [(.str "y", .num 4)]] zeroV)).result.scalar "x" = 0 :=
  ⟨rfl,
    ((missing_key_behaviour baseHelpers numRuntime pointS 1
      (Machine.init [.tbl [(.str "y", .num 4)]] zeroV) [] [⟨"y", numberT⟩] ⟨"x", numberT⟩
      [(.str "y", .num 4)] rfl rfl rfl rfl).2 (by decide) 0 _ rfl).2.2 (by decide)⟩

/-- C5: let the routine reach the array field f without error, with `index`
denoting a table.  The statements emitted for f begin with the lookup and the
table test.  If the value found under f's name is not a table, the routine
fails with "Expected a table for S.f", and the only table access made for f is
that lookup: no element is read and `result` is as it was before f.  If the
value is a table, the lookup and table test raise no error. -/
theorem array_field_requires_table {ν : Type} (H : Helpers) (R : Runtime ν)
    (S : StructDesc) (idx : Int) (m : Machine ν) (pre post : List FieldDesc)
    (f : FieldDesc) (Tc : Table)
    (hs : S.fields = pre ++ f :: post)
    (ha : f.type.kind = "array")
    (hm : (checkAfter H R S idx pre m).err = none)
    (hv : valueAt (.str f.name :: (checkAfter H R S idx pre m).stack) idx = .tbl Tc) :
    (emit_check_field H S f).take 3 = emit_check_guard S f ∧
    ((Table.get Tc (.str f.name)).isTable = false →
      (lua_checkStruct H R S idx m).err =
        some ("Expected a table for " ++ S.name ++ "." ++ f.name) ∧
      (lua_checkStruct H R S idx m).log =
        (checkAfter H R S idx pre m).log ++ [.gettable (.tbl Tc) (.str f.name)] ∧
      (lua_checkStruct H R S idx m).result = (checkAfter H R S idx pre m).result) ∧
    ((Table.get Tc (.str f.name)).isTable = true →
      (exec ⟨R, m.result, idx⟩ (emit_check_guard S f) (checkAfter H R S idx pre m)).err =
        none) := by
  have heta := Machine.eta_none _ hm
  refine ⟨by rw [emit_check_field_array H S f ha]; rfl, ?_, ?_⟩
  · intro hw
    have hf : checkAfter H R S idx (pre ++ [f]) m =
        ⟨Table.get Tc (.str f.name) :: (checkAfter H R S idx pre m).stack,
          (checkAfter H R S idx pre m).result,
          (checkAfter H R S idx pre m).log ++ [.gettable (.tbl Tc) (.str f.name)],
          some (expectedTableMsg S f)⟩ := by
      rw [checkAfter_snoc, heta]
      exact check_field_not_table H ⟨R, m.result, idx⟩ S f ha _ Tc hv hw _ _
    rw [lua_checkStruct_eq_checkAfter, hs, checkAfter_split, hf]
    rw [exec_of_err _ _ _ (by rfl)]
    exact ⟨rfl, rfl, rfl⟩
  · intro hw
    rw [heta]
    unfold emit_check_guard
    rw [show ∀ a b c : Stmt, [a, b, c] = [a, b] ++ [c] from fun _ _ _ => rfl, exec_append,
      check_lookup (⟨R, m.result, idx⟩ : Ctx ν) f.name _ Tc hv]
    simp [exec, execStmt, step, valueAt_neg_one, hw]

/-- Witness for C5: a length-4 array field whose value is the number 7. -/
theorem array_field_requires_table_witness :
    (lua_checkStruct baseHelpers numRuntime (arrayS 4) 1
      (Machine.init [.tbl [(.str "v", .num 7)]] zeroV)).err =
        some ("Expected a table for " ++ "Quad" ++ "." ++ "v") ∧
    (lua_checkStruct baseHelpers numRuntime (arrayS 4) 1
      (Machine.init [.tbl [(.str "v", .num 7)]] zeroV)).log =
        [.gettable (.tbl [(.str "v", .num 7)]) (.str "v")] :=
  let h := (array_field_requires_table baseHelpers numRuntime (arrayS 4) 1
    (Machine.init [.tbl [(.str "v", .num 7)]] zeroV) [] [] ⟨"v", ⟨"array", "number", [4]⟩⟩
    [(.str "v", .num 7)] rfl rfl rfl rfl).2.1 rfl
  ⟨h.1, h.2.1⟩

/-- C6 (counterexample): deserializing a 3-element sequence into an array
field of declared length 4 raises no error when the element conversion reads
a missing element as zero; when the element conversion is strict, the error
raised is the conversion's, not one naming the field. -/
theorem short_sequence_is_accepted :
    (lua_checkStruct baseHelpers numRuntime (arrayS 4) 1
      (Machine.init [.tbl [(.str "v", .tbl [(.int 1, .num 5), (.int 2, .num 6),
        (.int 3, .num 7)])]] zeroV)).err = none ∧
    (lua_checkStruct baseHelpers strictRuntime (arrayS 4) 1
      (Machine.init [.tbl [(.str "v", .tbl [(.int 1, .num 5), (.int 2, .num 6),
        (.int 3, .num 7)])]] zeroV)).err = some "number expected, got nil" := by
  decide

/-- C6 (amended): let the routine reach the array field f without error, with
`index` denoting a table in which f's name holds a table A, of any size, in
particular one with fewer entries than f's declared length.  Then the lookup
and table test of f raise no error, and when the element conversions return
normally and leave the stack as they found it, all statements of f complete
without error, leaving A on top of the stack they started from. -/
theorem short_sequence_raises_no_shape_error {ν : Type} (H : Helpers) (R : Runtime ν)
    (rd : String → Int → Stack → ν) (S : StructDesc) (idx : Int) (m : Machine ν)
    (pre post : List FieldDesc) (f : FieldDesc) (Tc A : Table)
    (hs : S.fields = pre ++ f :: post)
    (ha : f.type.kind = "array")
    (hm : (checkAfter H R S idx pre m).err = none)
    (hv : valueAt (.str f.name :: (checkAfter H R S idx pre m).stack) idx = .tbl Tc)
    (hw : Table.get Tc (.str f.name) = .tbl A) :
    pre ++ [f] <+: S.fields ∧
    (exec ⟨R, m.result, idx⟩ (emit_check_guard S f) (checkAfter H R S idx pre m)).err =
      none ∧
    ((∀ c i s, R.check c i s = .ok (rd c i s, s)) →
      (checkAfter H R S idx (pre ++ [f]) m).err = none ∧
      (checkAfter H R S idx (pre ++ [f]) m).stack =
        .tbl A :: (checkAfter H R S idx pre m).stack) := by
  have heta := Machine.eta_none _ hm
  refine ⟨⟨post, by rw [hs]; simp⟩, ?_, ?_⟩
  · rw [heta]
    unfold emit_check_guard
    rw [show ∀ a b c : Stmt, [a, b, c] = [a, b] ++ [c] from fun _ _ _ => rfl, exec_append,
      check_lookup (⟨R, m.result, idx⟩ : Ctx ν) f.name _ Tc hv, hw]
    simp [exec, execStmt, step, valueAt_neg_one, LuaVal.isTable]
  · intro hread
    have hf := check_field_table H ⟨R, m.result, idx⟩ rd hread S f ha _ Tc A hv hw
      (checkAfter H R S idx pre m).result (checkAfter H R S idx pre m).log
    rw [← heta, ← checkAfter_snoc] at hf
    rw [hf]
    exact ⟨rfl, rfl⟩

/-- Witness for C6 (amended): the 3-element sequence read into a length-4
array field. -/
theorem short_sequence_raises_no_shape_error_witness :
    (checkAfter baseHelpers numRuntime (arrayS 4) 1 ([] ++ [⟨"v", ⟨"array", "number", [4]⟩⟩])
      (Machine.init [.tbl [(.str "v", .tbl [(.int 1, .num 5), (.int 2, .num 6),
        (.int 3, .num 7)])]] zeroV)).err = none :=
  ((short_sequence_raises_no_shape_error baseHelpers numRuntime
    (fun _ i s => match valueAt s i with
      | .num n => n
      | _ => 0)
    (arrayS 4) 1
    (Machine.init [.tbl [(.str "v", .tbl [(.int 1, .num 5), (.int 2, .num 6),
      (.int 3, .num 7)])]] zeroV) [] [] ⟨"v", ⟨"array", "number", [4]⟩⟩
    [(.str "v", .tbl [(.int 1, .num 5), (.int 2, .num 6), (.int 3, .num 7)])]
    [(.int 1, .num 5), (.int 2, .num 6), (.int 3, .num 7)]
    rfl rfl rfl rfl rfl).2.2 (fun _ _ _ => rfl)).1

/-- C15: let the routine reach the array field f of declared length n without
error, with `index` denoting a table in which f's name holds a table A.  When
the element conversions return normally and leave the stack as they found it,
the table accesses made for f are the lookup followed by exactly n
`lua_rawgeti` reads of A, at keys 0, 1, ..., n - 1 in that order, whatever the
entries of A; native element i is the conversion applied with the value read
at key i on top of the stack, and elements from n on are untouched. -/
theorem array_field_reads_declared_length {ν : Type} (H : Helpers) (R : Runtime ν)
    (rd : String → Int → Stack → ν) (S : StructDesc) (idx : Int) (m : Machine ν)
    (pre post : List FieldDesc) (f : FieldDesc) (Tc A : Table)
    (hread : ∀ c i s, R.check c i s = .ok (rd c i s, s))
    (hs : S.fields = pre ++ f :: post)
    (ha : f.type.kind = "array")
    (hm : (checkAfter H R S idx pre m).err = none)
    (hv : valueAt (.str f.name :: (checkAfter H R S idx pre m).stack) idx = .tbl Tc)
    (hw : Table.get Tc (.str f.name) = .tbl A) :
    pre ++ [f] <+: S.fields ∧
    (checkAfter H R S idx (pre ++ [f]) m).log =
      (checkAfter H R S idx pre m).log ++
        (Event.gettable (.tbl Tc) (.str f.name) ::
          (List.range f.type.arrayLen).map (fun (i : Nat) => Event.rawgeti (.tbl A) i)) ∧
    ((List.range f.type.arrayLen).map
      (fun (i : Nat) => Event.rawgeti (.tbl A) i)).length = f.type.arrayLen ∧
    (∀ i, i < f.type.arrayLen →
      (checkAfter H R S idx (pre ++ [f]) m).result.elem f.name i =
        rd (H.field_from_lua f.type) (-1)
          (Table.get A (.int i) :: .tbl A :: (checkAfter H R S idx pre m).stack)) ∧
    (∀ i, f.type.arrayLen ≤ i →
      (checkAfter H R S idx (pre ++ [f]) m).result.elem f.name i =
        (checkAfter H R S idx pre m).result.elem f.name i) := by
  have heta := Machine.eta_none _ hm
  have hf := check_field_table H ⟨R, m.result, idx⟩ rd hread S f ha _ Tc A hv hw
    (checkAfter H R S idx pre m).result (checkAfter H R S idx pre m).log
  rw [← heta, ← checkAfter_snoc] at hf
  refine ⟨⟨post, by rw [hs]; simp⟩, by rw [hf], by simp, ?_, ?_⟩
  · intro i hi
    rw [hf]
    exact assignElems_elem_lt _ _ _ _ i hi
  · intro i hi
    rw [hf]
    exact assignElems_elem_other _ _ _ _ _ i (Or.inr hi)

/-- Witness for C15: a length-2 array field read from a 3-entry table. -/
theorem array_field_reads_declared_length_witness :
    (checkAfter baseHelpers numRuntime (arrayS 2) 1 ([] ++ [⟨"v", ⟨"array", "number", [2]⟩⟩])
      (Machine.init [.tbl [(.str "v", .tbl [(.int 0, .num 9), (.int 1, .num 5),
        (.int 2, .num 6)])]] zeroV)).log =
      [] ++ (Event.gettable (.tbl [(.str "v", .tbl [(.int 0, .num 9), (.int 1, .num 5),
          (.int 2, .num 6)])]) (.str "v") ::
        (List.range 2).map (fun (i : Nat) =>
          Event.rawgeti (.tbl [(.int 0, .num 9), (.int 1, .num 5), (.int 2, .num 6)]) i)) :=
  (array_field_reads_declared_length baseHelpers numRuntime
    (fun _ i s => match valueAt s i with
      | .num n => n
      | _ => 0)
    (arrayS 2) 1
    (Machine.init [.tbl [(.str "v", .tbl [(.int 0, .num 9), (.int 1, .num 5),
      (.int 2, .num 6)])]] zeroV) [] [] ⟨"v", ⟨"array", "number", [2]⟩⟩
    [(.str "v", .tbl [(.int 0, .num 9), (.int 1, .num 5), (.int 2, .num 6)])]
    [(.int 0, .num 9), (.int 1, .num 5), (.int 2, .num 6)]
    (fun _ _ _ => rfl) rfl rfl rfl rfl rfl).2.1

/-! ## Stack height of the deserialize routine -/

section Height
variable {ν : Type}

theorem err_none_of_execInstrs (C : Ctx ν) (i : Nat) (body : List Instr) (m : Machine ν)
    (h : (execInstrs C i body m).err = none) : m.err = none := by
  cases he : m.err with
  | none => rfl
  | some e =>
    rw [execInstrs_of_err C i body m (by rw [he]; rfl), he] at h
    exact absurd h (by simp)

theorem err_none_of_execStmt (C : Ctx ν) (s : Stmt) (m : Machine ν)
    (h : (execStmt C s m).err = none) : m.err = none := by
  cases he : m.err with
  | none => rfl
  | some e =>
    rw [execStmt_of_err C s m (by rw [he]; rfl), he] at h
    exact absurd h (by simp)

theorem err_none_of_exec (C : Ctx ν) (p : List Stmt) (m : Machine ν)
    (h : (exec C p m).err = none) : m.err = none := by
  cases he : m.err with
  | none => rfl
  | some e =>
    rw [exec_of_err C p m (by rw [he]; rfl), he] at h
    exact absurd h (by simp)

theorem check_body_height (C : Ctx ν)
    (hh : ∀ c idx s x s', C.R.check c idx s = .ok (x, s') → s'.length = s.length)
    (i : Nat) (name conv : String) (m : Machine ν)
    (h : (execInstrs C i [.lua_rawgeti (-1), .assign_elem name conv (-1), .lua_pop 1] m).err
      = none) :
    (execInstrs C i [.lua_rawgeti (-1), .assign_elem name conv (-1),
      .lua_pop 1] m).stack.length = m.stack.length := by
  have hm := err_none_of_execInstrs _ _ _ _ h
  obtain ⟨s, r, lg, e⟩ := m
  simp only at hm
  subst hm
  revert h
  simp only [execInstrs, List.foldl_cons, List.foldl_nil]
  cases hv : valueAt s (-1) with
  | tbl t =>
    cases hc : C.R.check conv (-1) (Table.get t (.int i) :: s) with
    | error e => simp [step, hv, hc, Machine.fail]
    | ok p =>
      obtain ⟨x, s'⟩ := p
      have := hh _ _ _ _ _ hc
      simp [step, hv, hc, this]
  | nil => simp [step, hv, Machine.fail]
  | bool b => simp [step, hv, Machine.fail]
  | num n => simp [step, hv, Machine.fail]
  | str n => simp [step, hv, Machine.fail]

theorem check_loop_height (C : Ctx ν)
    (hh : ∀ c idx s x s', C.R.check c idx s = .ok (x, s') → s'.length = s.length)
    (name conv : String) (n : Nat) (m : Machine ν)
    (h : (execStmt C (.for_lt n [.lua_rawgeti (-1), .assign_elem name conv (-1),
      .lua_pop 1]) m).err = none) :
    (execStmt C (.for_lt n [.lua_rawgeti (-1), .assign_elem name conv (-1),
      .lua_pop 1]) m).stack.length = m.stack.length := by
  induction n with
  | zero => rfl
  | succ n ih =>
    rw [for_lt_succ] at h ⊢
    rw [check_body_height C hh n name conv _ h, ih (err_none_of_execInstrs _ _ _ _ h)]

theorem check_field_height (H : Helpers) (C : Ctx ν) (S : StructDesc) (f : FieldDesc)
    (hh : ∀ c idx s x s', C.R.check c idx s = .ok (x, s') → s'.length = s.length)
    (m : Machine ν) (h : (exec C (emit_check_field H S f) m).err = none) :
    (exec C (emit_check_field H S f) m).stack.length = m.stack.length + 1 := by
  have hm := err_none_of_exec _ _ _ h
  obtain ⟨s, r, lg, e⟩ := m
  simp only at hm
  subst hm
  by_cases ha : f.type.kind = "array"
  · rw [emit_check_field_array H S f ha] at h ⊢
    rw [show ∀ a b c d : Stmt, [a, b, c, d] = [a, b, c] ++ [d] from fun _ _ _ _ => rfl,
      exec_append] at h ⊢
    simp only [exec_cons, exec_nil] at h ⊢
    rw [check_loop_height C hh _ _ _ _ h]
    have h3 := err_none_of_execStmt _ _ _ h
    revert h3
    cases hv : valueAt (.str f.name :: s) C.index <;>
      simp [execStmt, step, hv, Idx.eval, Machine.fail]
    split <;> simp
  · rw [emit_check_field_scalar H S f ha] at h ⊢
    revert h
    cases hv : valueAt (.str f.name :: s) C.index with
    | tbl t =>
      have hl := check_lookup C f.name s t hv r lg
      rw [show ∀ a b c : Stmt, [a, b, c] = [a, b] ++ [c] from fun _ _ _ => rfl,
        exec_append, hl]
      cases hc : C.R.check (H.field_from_lua f.type) (-1) (Table.get t (.str f.name) :: s) with
      | error e => simp [exec, execStmt, step, hc, Machine.fail]
      | ok p =>
        obtain ⟨x, s'⟩ := p
        have := hh _ _ _ _ _ hc
        simp [exec, execStmt, step, hc, this]
    | nil => simp [exec, execStmt, step, hv, Idx.eval]
    | bool b => simp [exec, execStmt, step, hv, Idx.eval]
    | num n => simp [exec, execStmt, step, hv, Idx.eval]
    | str n => simp [exec, execStmt, step, hv, Idx.eval]

theorem check_fields_height (H : Helpers) (C : Ctx ν) (S : StructDesc)
    (hh : ∀ c idx s x s', C.R.check c idx s = .ok (x, s') → s'.length = s.length)
    (fs : List FieldDesc) (m : Machine ν)
    (h : (exec C (fs.flatMap (emit_check_field H S)) m).err = none) :
    (exec C (fs.flatMap (emit_check_field H S)) m).stack.length =
      m.stack.length + fs.length := by
  induction fs generalizing m with
  | nil => rfl
  | cons f fs ih =>
    rw [exec_flatMap_cons] at h ⊢
    rw [ih _ h, check_field_height H C S f hh m (err_none_of_exec _ _ _ h)]
    simp only [List.length_cons]
    omega

end Height

/-- C16: when every check conversion leaves the stack height unchanged, a run
of `lua_check<Struct>` that returns normally leaves the stack exactly as many
slots higher as the struct has fields; in particular the height is unchanged
only for a struct with no fields. -/
theorem deserialize_leaves_one_slot_per_field {ν : Type} (H : Helpers) (R : Runtime ν)
    (S : StructDesc) (idx : Int) (m : Machine ν)
    (hh : ∀ c i s x s', R.check c i s = .ok (x, s') → s'.length = s.length)
    (hok : (lua_checkStruct H R S idx m).err = none) :
    (lua_checkStruct H R S idx m).stack.length = m.stack.length + S.fields.length ∧
    ((lua_checkStruct H R S idx m).stack.length = m.stack.length ↔ S.fields = []) := by
  have h := check_fields_height H ⟨R, m.result, idx⟩ S hh S.fields m hok
  have h' : (lua_checkStruct H R S idx m).stack.length = m.stack.length + S.fields.length := h
  refine ⟨h', ?_⟩
  rw [h']
  constructor
  · intro h0
    exact List.length_eq_zero.1 (by omega)
  · intro h0
    rw [h0]; rfl

/-- Witness for C16: `Point{x, y}` deserialized from a table at index 1 leaves
the stack two slots higher. -/
theorem deserialize_leaves_one_slot_per_field_witness :
    (lua_checkStruct baseHelpers numRuntime pointS 1
      (Machine.init [.tbl [(.str "x", .num 3), (.str "y", .num 4)]] zeroV)).err = none ∧
    (lua_checkStruct baseHelpers numRuntime pointS 1
      (Machine.init [.tbl [(.str "x", .num 3), (.str "y", .num 4)]] zeroV)).stack.length =
      1 + 2 :=
  ⟨rfl, (deserialize_leaves_one_slot_per_field baseHelpers numRuntime pointS 1
    (Machine.init [.tbl [(.str "x", .num 3), (.str "y", .num 4)]] zeroV)
    (fun _ _ _ _ _ h => by
      simp only [numRuntime, Except.ok.injEq, Prod.mk.injEq] at h
      rw [← h.2])
    rfl).1⟩

/-! ## Which value the lookups of the deserialize routine index -/

section Targets
variable {ν : Type}

theorem exists_of_isTable (v : LuaVal) (h : v.isTable = true) : ∃ A, v = .tbl A := by
  cases v with
  | tbl A => exact ⟨A, rfl⟩
  | nil => exact absurd h (by simp [LuaVal.isTable])
  | bool b => exact absurd h (by simp [LuaVal.isTable])
  | num n => exact absurd h (by simp [LuaVal.isTable])
  | str n => exact absurd h (by simp [LuaVal.isTable])

theorem valueAt_ext (ext s0 : List LuaVal) (idx : Int) (h1 : 0 < idx)
    (h2 : idx ≤ (s0.length : Int)) : valueAt (ext ++ s0) idx = valueAt s0 idx := by
  have hn : ¬ (idx < 0) := by omega
  have hz : ¬ (idx = 0) := by omega
  have hl : idx.toNat ≤ s0.length := by omega
  have hl' : idx.toNat ≤ (ext ++ s0).length := by rw [List.length_append]; omega
  simp only [valueAt, slotOf, if_neg hn, if_neg hz, if_pos hl, if_pos hl',
    List.getD_eq_getElem?_getD]
  rw [List.getElem?_append_right (by rw [List.length_append]; omega)]
  congr 2
  rw [List.length_append]
  omega

theorem check_body_targets (C : Ctx ν) (s0 : Stack) (v0 : LuaVal)
    (hext : ∀ c idx s x s', C.R.check c idx s = .ok (x, s') → ∃ e, s' = e ++ s)
    (i : Nat) (name conv : String) (m : Machine ν)
    (hm : m.err = none → ∃ e, m.stack = e ++ s0 ∧ e ≠ []) :
    ((execInstrs C i [.lua_rawgeti (-1), .assign_elem name conv (-1), .lua_pop 1] m).err = none →
      ∃ e, (execInstrs C i [.lua_rawgeti (-1), .assign_elem name conv (-1),
        .lua_pop 1] m).stack = e ++ s0 ∧ e ≠ []) ∧
    ∃ l, (execInstrs C i [.lua_rawgeti (-1), .assign_elem name conv (-1),
        .lua_pop 1] m).log = m.log ++ l ∧
      ∀ ev ∈ l, ∀ t k, ev = Event.gettable t k → t = v0 := by
  obtain ⟨s, r, lg, e⟩ := m
  cases e with
  | some e =>
    rw [execInstrs_of_err _ _ _ _ (by rfl)]
    exact ⟨fun h => absurd h (by simp), [], by simp, by simp⟩
  | none =>
    obtain ⟨ext, hs, hne⟩ := hm rfl
    simp only at hs
    subst hs
    cases ext with
    | nil => exact absurd rfl hne
    | cons a ext =>
      simp only [execInstrs, List.foldl_cons, List.foldl_nil, List.cons_append]
      cases a with
      | tbl t =>
        cases hc : C.R.check conv (-1) (Table.get t (.int i) :: .tbl t :: (ext ++ s0)) with
        | error e =>
          refine ⟨by simp [step, valueAt_neg_one, hc, Machine.fail],
            [.rawgeti (.tbl t) i], by simp [step, valueAt_neg_one, hc, Machine.fail], ?_⟩
          intro ev hev t' k' h
          simp only [List.mem_singleton] at hev
          rw [hev] at h
          exact Event.noConfusion h
        | ok p =>
          obtain ⟨x, s'⟩ := p
          obtain ⟨e2, he2⟩ := hext _ _ _ _ _ hc
          subst he2
          refine ⟨fun _ => ?_, [.rawgeti (.tbl t) i],
            by simp [step, valueAt_neg_one, hc], ?_⟩
          · cases e2 with
            | nil =>
              exact ⟨.tbl t :: ext, by simp [step, valueAt_neg_one, hc], by simp⟩
            | cons b e2 =>
              exact ⟨e2 ++ Table.get t (.int i) :: .tbl t :: ext,
                by simp [step, valueAt_neg_one, hc], by simp⟩
          · intro ev hev t' k' h
            simp only [List.mem_singleton] at hev
            rw [hev] at h
            exact Event.noConfusion h
      | nil =>
        exact ⟨by simp [step, valueAt_neg_one, Machine.fail], [],
          by simp [step, valueAt_neg_one, Machine.fail], by simp⟩
      | bool b =>
        exact ⟨by simp [step, valueAt_neg_one, Machine.fail], [],
          by simp [step, valueAt_neg_one, Machine.fail], by simp⟩
      | num n =>
        exact ⟨by simp [step, valueAt_neg_one, Machine.fail], [],
          by simp [step, valueAt_neg_one, Machine.fail], by simp⟩
      | str n =>
        exact ⟨by simp [step, valueAt_neg_one, Machine.fail], [],
          by simp [step, valueAt_neg_one, Machine.fail], by simp⟩

theorem check_loop_targets (C : Ctx ν) (s0 : Stack) (v0 : LuaVal)
    (hext : ∀ c idx s x s', C.R.check c idx s = .ok (x, s') → ∃ e, s' = e ++ s)
    (name conv : String) (n : Nat) (m : Machine ν)
    (hm : m.err = none → ∃ e, m.stack = e ++ s0 ∧ e ≠ []) :
    ((execStmt C (.for_lt n [.lua_rawgeti (-1), .assign_elem name conv (-1),
        .lua_pop 1]) m).err = none →
      ∃ e, (execStmt C (.for_lt n [.lua_rawgeti (-1), .assign_elem name conv (-1),
        .lua_pop 1]) m).stack = e ++ s0 ∧ e ≠ []) ∧
    ∃ l, (execStmt C (.for_lt n [.lua_rawgeti (-1), .assign_elem name conv (-1),
        .lua_pop 1]) m).log = m.log ++ l ∧
      ∀ ev ∈ l, ∀ t k, ev = Event.gettable t k → t = v0 := by
  induction n with
  | zero => exact ⟨hm, [], by simp [for_lt_zero], by simp⟩
  | succ n ih =>
    obtain ⟨ih1, l1, hl1, hp1⟩ := ih
    obtain ⟨h1, l2, hl2, hp2⟩ := check_body_targets C s0 v0 hext n name conv _ ih1
    rw [for_lt_succ]
    refine ⟨h1, l1 ++ l2, by rw [hl2, hl1, List.append_assoc], ?_⟩
    intro ev hev
    rcases List.mem_append.1 hev with h | h
    · exact hp1 ev h
    · exact hp2 ev h

theorem check_field_targets (H : Helpers) (C : Ctx ν) (S : StructDesc) (f : FieldDesc)
    (s0 : Stack) (h1 : 0 < C.index) (h2 : C.index ≤ (s0.length : Int))
    (hext : ∀ c idx s x s', C.R.check c idx s = .ok (x, s') → ∃ e, s' = e ++ s)
    (m : Machine ν) (hm : m.err = none → ∃ e, m.stack = e ++ s0) :
    ((exec C (emit_check_field H S f) m).err = none →
      ∃ e, (exec C (emit_check_field H S f) m).stack = e ++ s0) ∧
    ∃ l, (exec C (emit_check_field H S f) m).log = m.log ++ l ∧
      ∀ ev ∈ l, ∀ t k, ev = Event.gettable t k → t = valueAt s0 C.index := by
  obtain ⟨s, r, lg, e⟩ := m
  cases e with
  | some e =>
    rw [exec_of_err _ _ _ (by rfl)]
    exact ⟨fun h => absurd h (by simp), [], by simp, by simp⟩
  | none =>
    obtain ⟨ext, hs⟩ := hm rfl
    simp only at hs
    subst hs
    have hval : valueAt (.str f.name :: (ext ++ s0)) C.index = valueAt s0 C.index :=
      valueAt_ext (.str f.name :: ext) s0 C.index h1 h2
    have hsplit : ∀ p : List Stmt,
        exec C ([.instr (.lua_pushstring f.name), .instr (.lua_gettable .index)] ++ p)
          ⟨ext ++ s0, r, lg, none⟩ =
        exec C p (exec C [.instr (.lua_pushstring f.name), .instr (.lua_gettable .index)]
          ⟨ext ++ s0, r, lg, none⟩) := fun p => exec_append _ _ _ _
    cases hT : (valueAt s0 C.index).isTable with
    | false =>
      have hl := check_lookup_fail C f.name (ext ++ s0) (by rw [hval]; exact hT) r lg
      have hfin : exec C (emit_check_field H S f) ⟨ext ++ s0, r, lg, none⟩ =
          ⟨.str f.name :: (ext ++ s0), r,
            lg ++ [.gettable (valueAt (.str f.name :: (ext ++ s0)) C.index) (.str f.name)],
            some ("attempt to index a " ++
              (valueAt (.str f.name :: (ext ++ s0)) C.index).typeName ++ " value")⟩ := by
        by_cases ha : f.type.kind = "array"
        · rw [emit_check_field_array H S f ha]
          rw [show ∀ a b c d : Stmt, [a, b, c, d] = [a, b] ++ [c, d] from
            fun _ _ _ _ => rfl, hsplit, hl, exec_of_err _ _ _ (by rfl)]
        · rw [emit_check_field_scalar H S f ha]
          rw [show ∀ a b c : Stmt, [a, b, c] = [a, b] ++ [c] from
            fun _ _ _ => rfl, hsplit, hl, exec_of_err _ _ _ (by rfl)]
      rw [hfin]
      refine ⟨fun h => absurd h (by simp), _, rfl, ?_⟩
      intro ev hev t k h
      simp only [List.mem_singleton] at hev
      rw [hev, hval] at h
      injection h with ht _
      exact ht.symm
    | true =>
      obtain ⟨Tc, hTc⟩ := exists_of_isTable _ hT
      have hv : valueAt (.str f.name :: (ext ++ s0)) C.index = .tbl Tc := by
        rw [hval, hTc]
      have hlog : ∀ ev ∈ [Event.gettable (.tbl Tc) (.str f.name)],
          ∀ t k, ev = Event.gettable t k → t = valueAt s0 C.index := by
        intro ev hev t k h
        simp only [List.mem_singleton] at hev
        rw [hev] at h
        injection h with ht _
        rw [hTc]; exact ht.symm
      by_cases ha : f.type.kind = "array"
      · cases hw : (Table.get Tc (.str f.name)).isTable with
        | false =>
          rw [check_field_not_table H C S f ha _ Tc hv hw]
          exact ⟨fun h => absurd h (by simp), _, rfl, hlog⟩
        | true =>
          obtain ⟨A, hA⟩ := exists_of_isTable _ hw
          have hl := check_lookup C f.name (ext ++ s0) Tc hv r lg
          rw [emit_check_field_array H S f ha,
            show ∀ a b c d : Stmt, [a, b, c, d] = [a, b] ++ [c, d] from
              fun _ _ _ _ => rfl, hsplit, hl, exec_cons, hA]
          have h2' : execStmt C (.instr (.expect_table (-1) (expectedTableMsg S f)))
              ⟨.tbl A :: (ext ++ s0), r, lg ++ [.gettable (.tbl Tc) (.str f.name)], none⟩ =
              ⟨.tbl A :: (ext ++ s0), r, lg ++ [.gettable (.tbl Tc) (.str f.name)],
                none⟩ := by
            simp [execStmt, step, valueAt_neg_one, LuaVal.isTable]
          rw [h2', exec_cons, exec_nil]
          obtain ⟨g1, l, hl1, hp⟩ := check_loop_targets C s0 (valueAt s0 C.index) hext
            f.name (H.field_from_lua f.type) f.type.arrayLen
            ⟨.tbl A :: (ext ++ s0), r, lg ++ [.gettable (.tbl Tc) (.str f.name)], none⟩
            (fun _ => ⟨.tbl A :: ext, by simp, by simp⟩)
          refine ⟨fun h => ?_, [.gettable (.tbl Tc) (.str f.name)] ++ l, ?_, ?_⟩
          · obtain ⟨e, he, _⟩ := g1 h
            exact ⟨e, he⟩
          · rw [hl1]; simp
          · intro ev hev
            rcases List.mem_append.1 hev with h | h
            · exact hlog ev h
            · exact hp ev h
      · rw [check_field_scalar H C S f ha _ Tc hv]
        cases hc : C.R.check (H.field_from_lua f.type) (-1)
            (Table.get Tc (.str f.name) :: (ext ++ s0)) with
        | error e => exact ⟨fun h => absurd h (by simp), _, rfl, hlog⟩
        | ok p =>
          obtain ⟨x, s'⟩ := p
          obtain ⟨e2, he2⟩ := hext _ _ _ _ _ hc
          exact ⟨fun _ => ⟨e2 ++ Table.get Tc (.str f.name) :: ext, by simp [he2]⟩, _, rfl,
            hlog⟩

theorem check_fields_targets (H : Helpers) (C : Ctx ν) (S : StructDesc)
    (s0 : Stack) (h1 : 0 < C.index) (h2 : C.index ≤ (s0.length : Int))
    (hext : ∀ c idx s x s', C.R.check c idx s = .ok (x, s') → ∃ e, s' = e ++ s)
    (fs : List FieldDesc) (m : Machine ν) (hm : m.err = none → ∃ e, m.stack = e ++ s0) :
    ((exec C (fs.flatMap (emit_check_field H S)) m).err = none →
      ∃ e, (exec C (fs.flatMap (emit_check_field H S)) m).stack = e ++ s0) ∧
    ∃ l, (exec C (fs.flatMap (emit_check_field H S)) m).log = m.log ++ l ∧
      ∀ ev ∈ l, ∀ t k, ev = Event.gettable t k → t = valueAt s0 C.index := by
  induction fs generalizing m with
  | nil => exact ⟨hm, [], by simp [exec_nil], by simp⟩
  | cons f fs ih =>
    obtain ⟨g1, l1, hl1, hp1⟩ := check_field_targets H C S f s0 h1 h2 hext m hm
    obtain ⟨g2, l2, hl2, hp2⟩ := ih _ g1
    rw [exec_flatMap_cons]
    refine ⟨g2, l1 ++ l2, by rw [hl2, hl1, List.append_assoc], ?_⟩
    intro ev hev
    rcases List.mem_append.1 hev with h | h
    · exact hp1 ev h
    · exact hp2 ev h

end Targets

/-- C18: (1) called with index -1 on a struct with a first field f, the first
table access of `lua_check<Struct>` is a `lua_gettable` applied to the key
string it has just pushed (the name of f), whatever was on top of the stack at
entry.  (2) Called with a positive index i within the entry stack, and with
check conversions that leave the slots they find in place, every
`lua_gettable` the routine performs is applied to the value that was at slot i
on entry. -/
theorem deserialize_lookup_target {ν : Type} (H : Helpers) (R : Runtime ν) (S : StructDesc)
    (m : Machine ν) (hm : m.err = none) :
    (∀ f fs, S.fields = f :: fs →
      ∃ rest, (lua_checkStruct H R S (-1) m).log =
        m.log ++ Event.gettable (.str f.name) (.str f.name) :: rest) ∧
    (∀ i : Int, 0 < i → i ≤ (m.stack.length : Int) →
      (∀ c idx s x s', R.check c idx s = .ok (x, s') → ∃ e, s' = e ++ s) →
      ∃ l, (lua_checkStruct H R S i m).log = m.log ++ l ∧
        ∀ ev ∈ l, ∀ t k, ev = Event.gettable t k → t = valueAt m.stack i) := by
  constructor
  · intro f fs hfs
    refine ⟨[], ?_⟩
    unfold lua_checkStruct emit_lua_check
    rw [hfs, exec_flatMap_cons, Machine.eta_none m hm]
    have hl := check_lookup_fail (⟨R, m.result, -1⟩ : Ctx ν) f.name m.stack
      (by simp [valueAt_neg_one, LuaVal.isTable]) m.result m.log
    have hfin : exec (⟨R, m.result, -1⟩ : Ctx ν) (emit_check_field H S f)
        ⟨m.stack, m.result, m.log, none⟩ =
        ⟨.str f.name :: m.stack, m.result,
          m.log ++ [.gettable (.str f.name) (.str f.name)],
          some "attempt to index a string value"⟩ := by
      simp only [valueAt_neg_one] at hl
      by_cases ha : f.type.kind = "array"
      · rw [emit_check_field_array H S f ha,
          show ∀ a b c d : Stmt, [a, b, c, d] = [a, b] ++ [c, d] from fun _ _ _ _ => rfl,
          exec_append, hl, exec_of_err _ _ _ (by rfl)]
        rfl
      · rw [emit_check_field_scalar H S f ha,
          show ∀ a b c : Stmt, [a, b, c] = [a, b] ++ [c] from fun _ _ _ => rfl,
          exec_append, hl, exec_of_err _ _ _ (by rfl)]
        rfl
    rw [hfin, exec_of_err _ _ _ (by rfl)]
  · intro i h1 h2 hext
    exact (check_fields_targets H ⟨R, m.result, i⟩ S m.stack h1 h2 hext S.fields m
      (fun _ => ⟨[], rfl⟩)).2

/-- Witness for C18: `Point{x, y}` deserialized with index -1 from a stack
whose top is the table. -/
theorem deserialize_lookup_target_witness :
    ∃ rest, (lua_checkStruct baseHelpers numRuntime pointS (-1)
      (Machine.init [.tbl [(.str "x", .num 3), (.str "y", .num 4)]] zeroV)).log =
        [] ++ Event.gettable (.str "x") (.str "x") :: rest :=
  (deserialize_lookup_target baseHelpers numRuntime pointS
    (Machine.init [.tbl [(.str "x", .num 3), (.str "y", .num 4)]] zeroV) rfl).1
    ⟨"x", numberT⟩ [⟨"y", numberT⟩] rfl

/-! ## Function wrappers -/

section Wrapper
variable {ν : Type}

theorem emit_wrapper_eq (H : Helpers) (func : FuncDesc) :
    emit_wrapper H func =
      (func.arguments.enumFrom 0).map (fun p =>
        WStmt.decl_arg (H.return_type_from_lua p.2.type) p.2.name (H.field_from_lua p.2.type)
          ((p.1 : Int) + 1)) ++
      ([.call
        (if func.return_type.kind ≠ "void" then some (H.return_type_from_lua func.return_type)
         else none)
        func.name (func.arguments.map (fun a => a.name))] ++
      ((if func.return_type.kind ≠ "void" then
        [WStmt.push_result (H.field_to_lua func.return_type)
          (decide (func.return_type.kind = "typedef"))]
      else []) ++ [.ret 1])) := by
  unfold emit_wrapper enumerate
  cases h : func.arguments with
  | nil => simp [List.enum]
  | cons a as => simp [List.enum]

theorem wexec_append (R : Runtime ν) (p q : List WStmt) (m : WMachine ν) :
    wexec R (p ++ q) m = wexec R q (wexec R p m) := by
  unfold wexec; rw [List.foldl_append]

theorem wexec_cons (R : Runtime ν) (c : WStmt) (p : List WStmt) (m : WMachine ν) :
    wexec R (c :: p) m = wexec R p (wstep R c m) := rfl

theorem lookupAll_cons_other (vars : List (String × ν)) (n : String) (x : ν)
    (names : List String) (h : n ∉ names) :
    lookupAll ((n, x) :: vars) names = lookupAll vars names := by
  induction names with
  | nil => rfl
  | cons a as ih =>
    simp only [List.mem_cons, not_or] at h
    have ha : (a == n) = false := by
      simp only [beq_eq_false_iff_ne, ne_eq]
      exact fun e => h.1 e.symm
    simp only [lookupAll, List.lookup_cons, ha, ih h.2]

theorem lookupAll_zip (names : List String) (xs : List ν) (hnd : names.Nodup)
    (hl : xs.length = names.length) : lookupAll (names.zip xs) names = some xs := by
  induction names generalizing xs with
  | nil =>
    cases xs with
    | nil => rfl
    | cons x xs => simp at hl
  | cons n names ih =>
    cases xs with
    | nil => simp at hl
    | cons x xs =>
      simp only [List.nodup_cons] at hnd
      simp only [List.length_cons, Nat.add_right_cancel_iff] at hl
      simp only [List.zip_cons_cons, lookupAll, List.lookup_cons, beq_self_eq_true]
      rw [lookupAll_cons_other _ _ _ _ hnd.1, ih xs hnd.2 hl]

theorem decls_run (H : Helpers) (R : Runtime ν)
    (hok : ∀ c idx s, ∃ x s', R.check c idx s = .ok (x, s'))
    (args : List FieldDesc) (k0 : Nat) (s : Stack) (vars : List (String × ν))
    (res : Option ν) (lg : List (WEvent ν)) :
    ∃ xs s', xs.length = args.length ∧
      wexec R ((args.enumFrom k0).map (fun p =>
        WStmt.decl_arg (H.return_type_from_lua p.2.type) p.2.name (H.field_from_lua p.2.type)
          ((p.1 : Int) + 1))) ⟨s, vars, res, lg, none, none⟩ =
      ⟨s', vars ++ (args.map (fun a => a.name)).zip xs, res, lg ++ argEvents H k0 args xs,
        none, none⟩ := by
  induction args generalizing k0 s vars lg with
  | nil => exact ⟨[], s, rfl, by simp [wexec, argEvents]⟩
  | cons a args ih =>
    obtain ⟨x, s1, hx⟩ := hok (H.field_from_lua a.type) ((k0 : Int) + 1) s
    obtain ⟨xs, s', hlen, hrun⟩ := ih (k0 + 1) s1 (vars ++ [(a.name, x)])
      (lg ++ [.check (H.field_from_lua a.type) ((k0 : Int) + 1) x])
    refine ⟨x :: xs, s', by simp [hlen], ?_⟩
    simp only [List.enumFrom_cons, List.map_cons, wexec_cons]
    have h1 : wstep R (.decl_arg (H.return_type_from_lua a.type) a.name
        (H.field_from_lua a.type) ((k0 : Int) + 1)) ⟨s, vars, res, lg, none, none⟩ =
        ⟨s1, vars ++ [(a.name, x)], res,
          lg ++ [.check (H.field_from_lua a.type) ((k0 : Int) + 1) x], none, none⟩ := by
      simp [wstep, hx]
    rw [h1, hrun]
    simp [argEvents, List.enumFrom_cons]

theorem wrapper_run (H : Helpers) (R : Runtime ν) (func : FuncDesc) (s : Stack)
    (hok : ∀ c idx s, ∃ x s', R.check c idx s = .ok (x, s'))
    (hnd : (func.arguments.map (fun a => a.name)).Nodup) :
    ∃ xs s', xs.length = func.arguments.length ∧
      lua_wrapper H R func s =
        if func.return_type.kind ≠ "void" then
          ⟨R.push (H.field_to_lua func.return_type) (R.native func.name xs) s',
            (func.arguments.map (fun a => a.name)).zip xs, some (R.native func.name xs),
            argEvents H 0 func.arguments xs ++
              [.call func.name xs,
               .push (H.field_to_lua func.return_type) (R.native func.name xs)],
            none, some 1⟩
        else
          ⟨s', (func.arguments.map (fun a => a.name)).zip xs, none,
            argEvents H 0 func.arguments xs ++ [.call func.name xs], none, some 1⟩ := by
  obtain ⟨xs, s', hlen, hrun⟩ := decls_run H R hok func.arguments 0 s [] none []
  refine ⟨xs, s', hlen, ?_⟩
  unfold lua_wrapper
  rw [emit_wrapper_eq, wexec_append, hrun]
  have hlook : lookupAll ((func.arguments.map (fun a => a.name)).zip xs)
      (func.arguments.map (fun a => a.name)) = some xs :=
    lookupAll_zip _ xs hnd (by simp [hlen])
  by_cases hv : func.return_type.kind = "void"
  · simp [hv, wexec, wstep, hlook]
  · simp [hv, wexec, wstep, hlook]

end Wrapper

/-- C1 (evaluation at the failing input): the wrapper emitted for
`void CloseWindow(void)` is the call followed by `return 1;`; run on an empty
stack it pushes nothing and reports one return value. -/
theorem void_wrapper_returns_one :
    emit_wrapper baseHelpers closeWindowF = [.call none "CloseWindow" [], .ret 1] ∧
    (lua_wrapper baseHelpers numRuntime closeWindowF []).stack = [] ∧
    (lua_wrapper baseHelpers numRuntime closeWindowF []).err = none ∧
    (lua_wrapper baseHelpers numRuntime closeWindowF []).ret = some 1 :=
  ⟨by decide, rfl, rfl, rfl⟩

/-- C9: for a function with N arguments of distinct names whose check
conversions return normally, the wrapper first converts the arguments in
declared order, the k-th one from stack index k with the check conversion of
its declared type, and then calls the native function exactly once, with the N
values these conversions returned, in declared order (with no value when
N = 0). -/
theorem wrapper_reads_arguments_in_order {ν : Type} (H : Helpers) (R : Runtime ν)
    (func : FuncDesc) (s : Stack)
    (hok : ∀ c idx s, ∃ x s', R.check c idx s = .ok (x, s'))
    (hnd : (func.arguments.map (fun a => a.name)).Nodup) :
    ∃ xs : List ν, xs.length = func.arguments.length ∧
      (lua_wrapper H R func s).err = none ∧
      (lua_wrapper H R func s).log.take (func.arguments.length + 1) =
        List.zipWith (fun p x => WEvent.check (H.field_from_lua p.2.type) ((p.1 : Int) + 1) x)
          (func.arguments.enumFrom 0) xs ++ [.call func.name xs] ∧
      ((lua_wrapper H R func s).log.filter WEvent.isCall).length = 1 := by
  obtain ⟨xs, s', hlen, hrun⟩ := wrapper_run H R func s hok hnd
  have hlen' : (argEvents H 0 func.arguments xs).length = func.arguments.length := by
    simp [argEvents, hlen]
  have hnocall : (argEvents H 0 func.arguments xs).filter WEvent.isCall = [] := by
    rw [List.filter_eq_nil_iff]
    intro e he
    unfold argEvents at he
    rw [List.mem_iff_getElem] at he
    obtain ⟨i, hi, rfl⟩ := he
    simp [WEvent.isCall]
  refine ⟨xs, hlen, ?_, ?_, ?_⟩
  · rw [hrun]; split <;> rfl
  · rw [hrun]
    split
    · simp only []
      rw [show argEvents H 0 func.arguments xs ++
          [WEvent.call func.name xs, .push (H.field_to_lua func.return_type)
            (R.native func.name xs)] =
          (argEvents H 0 func.arguments xs ++ [WEvent.call func.name xs]) ++
            [.push (H.field_to_lua func.return_type) (R.native func.name xs)] by simp,
        List.take_left' (by simp [hlen'])]
      rfl
    · simp only []
      rw [List.take_of_length_le (by simp [hlen'])]
      rfl
  · rw [hrun]
    split
    · simp [List.filter_append, hnocall, WEvent.isCall, List.filter_cons]
    · simp [List.filter_append, hnocall, WEvent.isCall, List.filter_cons]

/-- Witness for C9: `Add(a, b)` called on the stack holding 3 and 4. -/
theorem wrapper_reads_arguments_in_order_witness :
    ∃ xs : List Int, xs.length = 2 ∧
      (lua_wrapper baseHelpers numRuntime addF [.num 4, .num 3]).log.take (2 + 1) =
        List.zipWith
          (fun p x => WEvent.check (baseHelpers.field_from_lua p.2.type) ((p.1 : Int) + 1) x)
          (addF.arguments.enumFrom 0) xs ++ [.call "Add" xs] := by
  obtain ⟨xs, h1, _, h3, _⟩ := wrapper_reads_arguments_in_order baseHelpers numRuntime addF
    [.num 4, .num 3] (fun _ _ _ => ⟨_, _, rfl⟩) (by decide)
  exact ⟨xs, h1, h3⟩

/-- C10: for a function whose return type is not void, with arguments of
distinct names whose check conversions return normally, the wrapper calls the
native function once, pushes its result with the push conversion of the return
type, once, and returns 1; when that push conversion pushes exactly one value
the final stack is that one value on top of the stack the argument conversions
left. -/
theorem nonvoid_wrapper_pushes_one_result {ν : Type} (H : Helpers) (R : Runtime ν)
    (func : FuncDesc) (s : Stack)
    (hv : func.return_type.kind ≠ "void")
    (hok : ∀ c idx s, ∃ x s', R.check c idx s = .ok (x, s'))
    (hnd : (func.arguments.map (fun a => a.name)).Nodup) :
    ∃ (xs : List ν) (s' : Stack), xs.length = func.arguments.length ∧
      (lua_wrapper H R func s).ret = some 1 ∧
      (lua_wrapper H R func s).err = none ∧
      (lua_wrapper H R func s).result = some (R.native func.name xs) ∧
      (lua_wrapper H R func s).log =
        argEvents H 0 func.arguments xs ++
          [.call func.name xs,
           .push (H.field_to_lua func.return_type) (R.native func.name xs)] ∧
      ((lua_wrapper H R func s).log.filter WEvent.isPush).length = 1 ∧
      (lua_wrapper H R func s).stack =
        R.push (H.field_to_lua func.return_type) (R.native func.name xs) s' ∧
      (∀ toLua : String → ν → LuaVal, (∀ c x st, R.push c x st = toLua c x :: st) →
        (lua_wrapper H R func s).stack =
          toLua (H.field_to_lua func.return_type) (R.native func.name xs) :: s') := by
  obtain ⟨xs, s', hlen, hrun⟩ := wrapper_run H R func s hok hnd
  rw [if_pos hv] at hrun
  have hnopush : (argEvents H 0 func.arguments xs).filter WEvent.isPush = [] := by
    rw [List.filter_eq_nil_iff]
    intro e he
    unfold argEvents at he
    rw [List.mem_iff_getElem] at he
    obtain ⟨i, hi, rfl⟩ := he
    simp [WEvent.isPush]
  refine ⟨xs, s', hlen, ?_⟩
  rw [hrun]
  refine ⟨rfl, rfl, rfl, rfl, ?_, rfl, ?_⟩
  · simp [List.filter_append, hnopush, WEvent.isPush, List.filter_cons]
  · intro toLua hp
    exact hp _ _ _

/-- Witness for C10: `Add(3, 4)` returns one value, 7 (end-to-end
scenario 3). -/
theorem nonvoid_wrapper_pushes_one_result_witness :
    (lua_wrapper baseHelpers numRuntime addF [.num 4, .num 3]).ret = some 1 ∧
    (lua_wrapper baseHelpers numRuntime addF [.num 4, .num 3]).stack =
      [.num 7, .num 4, .num 3] := by
  obtain ⟨_, _, _, h1, _⟩ := nonvoid_wrapper_pushes_one_result baseHelpers numRuntime addF
    [.num 4, .num 3] (by decide) (fun _ _ _ => ⟨_, _, rfl⟩) (by decide)
  exact ⟨h1, rfl⟩

/-! ## Registration -/

/-- C11: for a list of n functions, the emitted array `regs` has declared size
n + 1 and n + 1 initializers: the first n pair, in input order, the
case-converted name of a function with its wrapper `lua_<name>`, the
transform being applied once to each name, and the last is the
`{ NULL, NULL }` sentinel. -/
theorem registration_table_shape (H : Helpers) (name bind_name : String)
    (functions : List FuncDesc) (enums : List EnumDesc) :
    (emit_init H name bind_name functions enums).regs = emit_regs H functions ∧
    (emit_regs H functions).size = functions.length + 1 ∧
    (emit_regs H functions).entries.length = functions.length + 1 ∧
    (emit_regs H functions).entries.take functions.length =
      functions.map (fun func =>
        ⟨some (H.pascal_to_snake_case func.name), some ("lua_" ++ func.name)⟩) ∧
    (emit_regs H functions).entries.drop functions.length = [⟨none, none⟩] ∧
    (emit_regs H functions).entries.filterMap (fun e => e.name) =
      functions.map (fun func => H.pascal_to_snake_case func.name) := by
  refine ⟨rfl, rfl, by simp [emit_regs], ?_, ?_, ?_⟩
  · simp only [emit_regs]
    rw [List.take_left' (by simp)]
  · simp only [emit_regs]
    rw [List.drop_left' (by simp)]
  · simp only [emit_regs, List.filterMap_append]
    induction functions with
    | nil => rfl
    | cons f fs ih =>
      simp only [List.map_cons, List.filterMap_cons, List.cons_append]
      simp only [List.filterMap_cons, List.filterMap_nil, List.append_nil] at ih ⊢
      rw [ih]

theorem emit_enums_flatten (enums : List EnumDesc) :
    emit_enums enums =
      (flattenEnums enums).flatMap (fun v =>
        [Stmt.instr (.lua_pushnumber v.value), .instr (.lua_setfield (-2) v.name)]) := by
  unfold emit_enums flattenEnums
  induction enums with
  | nil => rfl
  | cons e es ih => simp [List.flatMap_cons, List.flatMap_append, ih]

theorem enums_run {ν : Type} (C : Ctx ν) (vs : List EnumValue) (ns : Table) (rest : Stack)
    (r : NativeStruct ν) (lg : List Event) :
    exec C (vs.flatMap (fun v =>
        [Stmt.instr (.lua_pushnumber v.value), .instr (.lua_setfield (-2) v.name)]))
        ⟨.tbl ns :: rest, r, lg, none⟩ =
      ⟨.tbl (Table.setAll ns (enumPairs vs)) :: rest, r,
        lg ++ vs.map (fun v => Event.setfield (rest.length + 1) v.name (.num v.value)),
        none⟩ := by
  induction vs generalizing ns lg with
  | nil => simp [exec_nil, enumPairs, Table.setAll_nil]
  | cons v vs ih =>
    rw [exec_flatMap_cons]
    have h1 : exec C [Stmt.instr (.lua_pushnumber v.value),
        .instr (.lua_setfield (-2) v.name)] ⟨.tbl ns :: rest, r, lg, none⟩ =
        ⟨.tbl (Table.set ns (.str v.name) (.num v.value)) :: rest, r,
          lg ++ [Event.setfield (rest.length + 1) v.name (.num v.value)], none⟩ := by
      simp [exec, execStmt, step, Machine.store, slotOf_neg_two]
    rw [h1, ih]
    simp [enumPairs, Table.setAll_cons]

/-- C12: the statements emitted for the enums are, for each value of the
flattened list of all groups' values, in order, one `lua_pushnumber` of the
value followed by one `lua_setfield(L, -2, name)`; so two enum lists with the
same flattened values emit the same statements.  Run with a table on top of
the stack, they leave the stack as it was except that this table has received
the assignments name = value, one per enum value, in order.  For the groups
Color{RED=1, GREEN=2} and Size{SMALL=1} an empty namespace ends up with
exactly the fields RED=1, GREEN=2, SMALL=1, and reads nil at Color and Size. -/
theorem enum_grouping_is_discarded :
    (∀ enums : List EnumDesc,
      emit_enums enums =
        (flattenEnums enums).flatMap (fun v =>
          [Stmt.instr (.lua_pushnumber v.value), .instr (.lua_setfield (-2) v.name)])) ∧
    (∀ enums enums' : List EnumDesc,
      flattenEnums enums = flattenEnums enums' → emit_enums enums = emit_enums enums') ∧
    (∀ (enums : List EnumDesc) (ns : Table) (rest : Stack),
      (exec (⟨numRuntime, zeroV, 0⟩ : Ctx Int) (emit_enums enums)
          (Machine.init (.tbl ns :: rest) zeroV)).stack =
        .tbl (Table.setAll ns (enumPairs (flattenEnums enums))) :: rest ∧
      (exec (⟨numRuntime, zeroV, 0⟩ : Ctx Int) (emit_enums enums)
          (Machine.init (.tbl ns :: rest) zeroV)).log =
        (flattenEnums enums).map (fun v =>
          Event.setfield (rest.length + 1) v.name (.num v.value)) ∧
      (exec (⟨numRuntime, zeroV, 0⟩ : Ctx Int) (emit_enums enums)
          (Machine.init (.tbl ns :: rest) zeroV)).err = none) ∧
    (exec (⟨numRuntime, zeroV, 0⟩ : Ctx Int) (emit_enums scenarioEnums)
        (Machine.init [.tbl []] zeroV)).stack =
      [.tbl [(.str "RED", .num 1), (.str "GREEN", .num 2), (.str "SMALL", .num 1)]] ∧
    Table.get [(.str "RED", .num 1), (.str "GREEN", .num 2), (.str "SMALL", .num 1)]
      (.str "Color") = .nil ∧
    Table.get [(.str "RED", .num 1), (.str "GREEN", .num 2), (.str "SMALL", .num 1)]
      (.str "Size") = .nil := by
  refine ⟨emit_enums_flatten, ?_, ?_, rfl, rfl, rfl⟩
  · intro enums enums' h
    rw [emit_enums_flatten, emit_enums_flatten, h]
  · intro enums ns rest
    rw [emit_enums_flatten, Machine.init, enums_run]
    exact ⟨rfl, by simp, rfl⟩

/-! ## Macro aliasing of typedefs -/

theorem occursIn_append (p a b : List Char) : occursIn p (a ++ (p ++ b)) = true := by
  induction a with
  | nil =>
    cases h : p ++ b with
    | nil =>
      have hp : p = [] := (List.append_eq_nil.1 h).1
      simp [occursIn, hp]
    | cons c cs =>
      have hpre : p.isPrefixOf (c :: cs) = true := by
        rw [← h, List.isPrefixOf_iff_prefix]
        exact List.prefix_append p b
      simp [occursIn, hpre]
  | cons c a ih =>
    show (p.isPrefixOf (c :: (a ++ (p ++ b))) || occursIn p (a ++ (p ++ b))) = true
    rw [ih, Bool.or_true]

theorem str_in_append (p pre post : String) : str_in p (pre ++ p ++ post) = true := by
  unfold str_in
  show occursIn p.data ((pre ++ p ++ post).data) = true
  rw [String.data_append, String.data_append, List.append_assoc]
  exact occursIn_append _ _ _

/-- C13: for a typedef entry (k, v) the three `#define` lines (the alias,
`lua_push<k>` to `lua_push<v>`, `lua_check<k>` to `lua_check<v>`) are emitted
exactly when v does not start with "struct", k differs from v and "(*)" does
not occur in v, and nothing is emitted otherwise; in particular nothing is
emitted for a v that contains "(*)" or for v equal to k. -/
theorem typedef_alias_condition (k v : String) :
    (emit_typedef k v =
        [⟨k, v⟩, ⟨"lua_push" ++ k, "lua_push" ++ v⟩, ⟨"lua_check" ++ k, "lua_check" ++ v⟩] ↔
      (startswith v "struct" = false ∧ k ≠ v ∧ str_in "(*)" v = false)) ∧
    (emit_typedef k v = [] ↔
      ¬ (startswith v "struct" = false ∧ k ≠ v ∧ str_in "(*)" v = false)) ∧
    (∀ pre post : String, emit_typedef k (pre ++ "(*)" ++ post) = []) ∧
    emit_typedef k k = [] ∧
    emit_typedefs [(k, v)] = emit_typedef k v := by
  have hcond : (startswith v "struct" = false ∧ k ≠ v ∧ ¬ str_in "(*)" v = true) ↔
      (startswith v "struct" = false ∧ k ≠ v ∧ str_in "(*)" v = false) := by
    simp
  refine ⟨?_, ?_, ?_, ?_, ?_⟩
  · unfold emit_typedef
    by_cases h : startswith v "struct" = false ∧ k ≠ v ∧ ¬ str_in "(*)" v = true
    · rw [if_pos h]
      exact ⟨fun _ => hcond.1 h, fun _ => rfl⟩
    · rw [if_neg h]
      exact ⟨fun e => absurd e (by simp), fun e => absurd (hcond.2 e) h⟩
  · unfold emit_typedef
    by_cases h : startswith v "struct" = false ∧ k ≠ v ∧ ¬ str_in "(*)" v = true
    · rw [if_pos h]
      exact ⟨fun e => absurd e (by simp), fun e => absurd (hcond.1 h) e⟩
    · rw [if_neg h]
      exact ⟨fun _ e => h (hcond.2 e), fun _ => rfl⟩
  · intro pre post
    unfold emit_typedef
    rw [if_neg]
    rintro ⟨_, _, h3⟩
    exact h3 (str_in_append "(*)" pre post)
  · unfold emit_typedef
    rw [if_neg]
    rintro ⟨_, h2, _⟩
    exact h2 rfl
  · simp [emit_typedefs]

/-! ## Passing aggregates by reference -/

theorem pushRefs_append (p q : List Stmt) : pushRefs (p ++ q) = pushRefs p ++ pushRefs q := by
  unfold pushRefs; rw [List.flatMap_append]

theorem pushRefs_field (H : Helpers) (f : FieldDesc) :
    pushRefs (emit_push_field H f) = [fieldPushRef f] := by
  unfold emit_push_field fieldPushRef
  by_cases ha : f.type.kind = "array"
  · simp [ha, pushRefs, Instr.pushRef, List.flatMap_cons]
  · by_cases ht : f.type.kind = "typedef"
    · simp [ha, ht, pushRefs, Instr.pushRef, List.flatMap_cons]
    · simp [ha, ht, pushRefs, Instr.pushRef, List.flatMap_cons]

theorem pushRefs_fields (H : Helpers) (fs : List FieldDesc) :
    pushRefs (fs.flatMap (emit_push_field H)) = fs.map fieldPushRef := by
  induction fs with
  | nil => rfl
  | cons f fs ih =>
    rw [List.flatMap_cons, pushRefs_append, pushRefs_field, ih]
    rfl

/-- C14 (counterexample): for the structs `Vector2{x, y}` and
`Poly{Vector2 pts[3]}`, the element push emitted for `pts` passes
`val->pts[i]` by value, although `Vector2` is a struct of the same generated
unit: it is not true that every array element whose base type is a struct is
passed by address. -/
theorem aggregate_element_passed_by_value :
    pushRefs (emit_lua_push baseHelpers polyS) = [(.elem "pts", false)] ∧
    ¬ (∀ (H : Helpers) (structs : List StructDesc) (S : StructDesc) (f : FieldDesc),
        S ∈ structs → f ∈ S.fields → f.type.kind = "array" →
        (∃ T ∈ structs, T.name = f.type.base) →
        (Src.elem f.name, true) ∈ pushRefs (emit_lua_push H S)) := by
  have h1 : pushRefs (emit_lua_push baseHelpers polyS) = [(.elem "pts", false)] := by
    decide
  refine ⟨h1, ?_⟩
  intro h
  have := h baseHelpers [vector2S, polyS] polyS ⟨"pts", ⟨"array", "Vector2", [3]⟩⟩
    (by simp) (by simp [polyS]) rfl ⟨vector2S, by simp, rfl⟩
  rw [h1] at this
  simp at this

/-- C14 (amended): the pushes emitted in `lua_push<Struct>` are one per
field, in field order; an array element `val->f[i]` is passed by address
exactly when the field's base type is named "Matrix", and a direct member
`val->f` exactly when the field's type kind is "typedef".  A wrapper pushes
`result` at most once, only for a non-void return type, and by address exactly
when the return type's kind is "typedef". -/
theorem by_reference_rule (H : Helpers) (S : StructDesc) (func : FuncDesc) :
    pushRefs (emit_lua_push H S) = S.fields.map fieldPushRef ∧
    (∀ f : FieldDesc, fieldPushRef f =
      if f.type.kind = "array" then (Src.elem f.name, decide (f.type.base = "Matrix"))
      else (Src.field f.name, decide (f.type.kind = "typedef"))) ∧
    resultRefs (emit_wrapper H func) =
      if func.return_type.kind ≠ "void" then [decide (func.return_type.kind = "typedef")]
      else [] := by
  refine ⟨?_, fun _ => rfl, ?_⟩
  · unfold emit_lua_push
    rw [pushRefs_append, pushRefs_fields]
    rfl
  · rw [emit_wrapper_eq]
    have hd : ∀ (l : List (Nat × FieldDesc)), resultRefs (l.map (fun p =>
        WStmt.decl_arg (H.return_type_from_lua p.2.type) p.2.name (H.field_from_lua p.2.type)
          ((p.1 : Int) + 1))) = [] := by
      intro l
      induction l with
      | nil => rfl
      | cons a l ih =>
        simp only [resultRefs, List.map_cons, List.flatMap_cons, List.nil_append] at ih ⊢
        exact ih
    have happ : ∀ p q : List WStmt, resultRefs (p ++ q) = resultRefs p ++ resultRefs q := by
      intro p q
      unfold resultRefs
      rw [List.flatMap_append]
    rw [happ, hd]
    by_cases hv : func.return_type.kind = "void"
    · simp [hv, resultRefs, List.flatMap_cons]
    · simp [hv, resultRefs, List.flatMap_cons]

end CJ
